import Mathlib

/-!
Verification of the array marshaling core of a D-Bus-style variant
encoding engine. The repository provides `src/array.rs` (the `Array`
container type: encode, extent-only slicing, decode, signature handling
and conversions); its collaborators (`SharedData` byte views,
`EncodingContext`, the signature grammar, the scalar leaf codecs and the
`Variant` tagged union) are not part of the sources and are modelled from
the specification, as marked on each definition.

Machine integers are modelled as `Nat` (unsigned) and `Int` (signed) with
explicit `% 2^w` reductions where the code truncates.
-/

namespace ZB

/-- Modelled from the spec: byte order carried by the encoding context
("carries byte order", §2.2). -/
inductive ByteOrder where
  | little
  | big
deriving DecidableEq, Repr

/-- Modelled from the platform: the source back-patches the array length
with `byteorder::NativeEndian` / `0u32.to_ne_bytes()`; the development
fixes the host's native order to little-endian (x86-64). -/
def nativeOrder : ByteOrder := .little

/-- Modelled from the spec: immutable value carrying the byte order
(§4.2); recursion bookkeeping carries no observable state. -/
structure EncodingContext where
  order : ByteOrder
deriving DecidableEq, Repr

/-- Modelled from the spec: `copy_for_child` produces an equivalent
context for nested values (§4.2). -/
def EncodingContext.copy_for_child (c : EncodingContext) : EncodingContext := c

/-- Error kinds of the engine (§7). -/
inductive VariantError where
  | InsufficientData
  | ExcessData
  | IncorrectType
deriving DecidableEq, Repr

/-- Modelled from the spec: the shared byte-buffer view (§4.1) — a window
of bytes plus the absolute offset of its first byte in the top-level
message buffer. Bytes are `Nat` values below 256 for real buffers. -/
structure SharedData where
  bytes : List Nat
  pos : Nat
deriving DecidableEq, Repr

/-- Modelled from the spec: number of visible bytes of the view. -/
def SharedData.len (d : SharedData) : Nat := d.bytes.length

/-- Modelled from the spec: absolute offset of the view's first byte. -/
def SharedData.position (d : SharedData) : Nat := d.pos

/-- Modelled from the spec: view of the first `n` bytes. -/
def SharedData.head (d : SharedData) (n : Nat) : SharedData :=
  ⟨d.bytes.take n, d.pos⟩

/-- Modelled from the spec: view with the first `n` bytes dropped. -/
def SharedData.tail (d : SharedData) (n : Nat) : SharedData :=
  ⟨d.bytes.drop n, d.pos + n⟩

/-- Modelled from the spec: sub-range view `[s, e)`. -/
def SharedData.subset (d : SharedData) (s e : Nat) : SharedData :=
  ⟨(d.bytes.take e).drop s, d.pos + s⟩

/-- Padding rule shared by encode, slice and decode (§4.4):
`(alignment - position mod alignment) mod alignment`. -/
def padAmt (pos align : Nat) : Nat := (align - pos % align) % align

/-- Modelled from the spec: the scalar leaf kinds of the closed type
algebra with their byte size and alignment: `y` = u8, `i` = i32,
`u` = u32, `x` = i64. -/
def scalarInfo : Char → Option (Nat × Nat)
  | 'y' => some (1, 1)
  | 'i' => some (4, 4)
  | 'u' => some (4, 4)
  | 'x' => some (8, 8)
  | _ => none

/-- Modelled from the spec: the signature grammar (§4.3) — the shortest
prefix of the signature that is one complete type expression: a scalar
character alone, or `a` followed by one complete child signature. -/
def slice_signature : List Char → Except VariantError (List Char)
  | [] => .error .InsufficientData
  | 'a' :: rest => (slice_signature rest).map (fun s => 'a' :: s)
  | c :: _ =>
    if (scalarInfo c).isSome then .ok [c] else .error .IncorrectType

/-- A sliced signature is never longer than its input. -/
theorem slice_signature_length {s r : List Char}
    (h : slice_signature s = .ok r) : r.length ≤ s.length := by
  induction s generalizing r with
  | nil => simp [slice_signature] at h
  | cons c rest ih =>
    by_cases hc : c = 'a'
    · subst hc
      simp only [slice_signature] at h
      cases hr : slice_signature rest with
      | error e => rw [hr] at h; simp [Except.map] at h
      | ok r' =>
        rw [hr] at h
        simp [Except.map] at h
        subst h
        simpa using ih hr
    · rw [show slice_signature (c :: rest) =
          (if (scalarInfo c).isSome then .ok [c] else .error .IncorrectType) by
        cases c with | mk v p => simp [slice_signature, hc]] at h
      by_cases hs : (scalarInfo c).isSome
      · simp [hs] at h; subst h; simp
      · simp [hs] at h

/-- The `Variant` compound-value union. Modelled from the spec: a tagged
union over the closed set of kinds — the four scalar leaves and the
array container (§3, §9). The `array` payload is the inner element
vector of the `Array` newtype. -/
inductive Variant where
  | u8 (v : Nat)
  | i32 (v : Int)
  | u32 (v : Nat)
  | i64 (v : Int)
  | array (elems : List Variant)
deriving Repr

/-- The `Array` newtype over a vector of variants (source
`pub struct Array(Vec<Variant>)`). -/
structure Array where
  elems : List Variant
deriving Repr

/-- Source `Array::new`: the empty array. -/
def Array.new : Array := ⟨[]⟩

/-- Source `Array::new_from_vec`. -/
def Array.new_from_vec (v : List Variant) : Array := ⟨v⟩

/-- Source `Array::inner`. -/
def Array.inner (a : Array) : List Variant := a.elems

/-- Source `Array::take_inner`. -/
def Array.take_inner (a : Array) : List Variant := a.elems

mutual

/-- Modelled from the spec: `Variant::value_signature`, the canonical
signature text of a decoded value (§4.4); for an array it delegates to
the instance signature derived from the first element (§4.8). `none`
models the panic on an empty in-memory array. -/
def Variant.value_signature : Variant → Option (List Char)
  | .u8 _ => some ['y']
  | .i32 _ => some ['i']
  | .u32 _ => some ['u']
  | .i64 _ => some ['x']
  | .array es => array_signature_of es

/-- Helper for `Variant.value_signature` / `Array.signature`: source
`format!("a{}", self.inner()[0].value_signature())`; `none` models the
panic of indexing the first element of an empty vector. -/
def array_signature_of : List Variant → Option (List Char)
  | [] => none
  | e :: _ => (Variant.value_signature e).map (fun s => 'a' :: s)

end

/-- Source `Array::signature` (lines 156-160): `'a'` prefixed to the
first element's value signature; the unconditional `self.inner()[0]`
panics on an empty array, modelled as `none`. -/
def Array.signature (a : Array) : Option (List Char) :=
  array_signature_of a.elems

/-- Source `Array::slice_signature` (lines 162-171): require the leading
`'a'`, then exactly one complete child signature after it. -/
def Array.slice_signature (signature : List Char) :
    Except VariantError (List Char) :=
  match signature with
  | 'a' :: rest => (ZB.slice_signature rest).map (fun s => 'a' :: s)
  | _ => .error .IncorrectType

/-- Source `Array::ensure_correct_signature` (lines 147-154): the whole
signature must be consumed by slicing one array signature. -/
def ensure_correct_signature (signature : List Char) :
    Except VariantError Unit :=
  match Array.slice_signature signature with
  | .error e => .error e
  | .ok s =>
    if s.length ≠ signature.length then .error .IncorrectType else .ok ()

/-- Little-endian byte decomposition of the low 32 bits of a natural. -/
def bytes4 (v : Nat) : List Nat :=
  [v % 256, v / 256 % 256, v / 65536 % 256, v / 16777216 % 256]

/-- Little-endian byte decomposition of the low 64 bits of a natural. -/
def bytes8 (v : Nat) : List Nat :=
  [v % 256, v / 256 % 256, v / 65536 % 256, v / 16777216 % 256,
   v / 4294967296 % 256, v / 1099511627776 % 256,
   v / 281474976710656 % 256, v / 72057594037927936 % 256]

/-- Arrange little-endian bytes according to a byte order. -/
def orderBytes (o : ByteOrder) (l : List Nat) : List Nat :=
  match o with
  | .little => l
  | .big => l.reverse

/-- Modelled from the spec: the byte-order-aware u32 write of the
collaborating fixed-width integer codec (§6). -/
def u32ToBytes (o : ByteOrder) (v : Nat) : List Nat :=
  orderBytes o (bytes4 v)

/-- Little-endian read of a byte list. -/
def natOfBytes : List Nat → Nat
  | [] => 0
  | b :: rest => b + 256 * natOfBytes rest

/-- Modelled from the spec: byte-order-aware read of `n` bytes. -/
def readNat (o : ByteOrder) (l : List Nat) : Nat :=
  natOfBytes (orderBytes o l)

/-- Two's-complement reading of an unsigned `w`-bit value. -/
def toSigned (w n : Nat) : Int :=
  if n < 2 ^ (w - 1) then (n : Int) else (n : Int) - 2 ^ w

/-- Two's-complement image of a signed value in `w` bits. -/
def ofSigned (w : Nat) (v : Int) : Nat := (v % ((2 : Int) ^ w)).toNat

/-- Modelled from the spec: `utils::usize_to_u32`, the cast of a buffer
length to the 4-byte length field (u32 truncation). -/
def usize_to_u32 (n : Nat) : Nat := n % 4294967296

/-- Modelled from the spec: `add_padding` — append zero bytes until the
buffer length is a multiple of the alignment (§4.4 padding rule). -/
def addPadding (align : Nat) (bytes : List Nat) : List Nat :=
  bytes ++ List.replicate (padAmt bytes.length align) 0

/-- Overwrite the 4 bytes at index `i` with `w` (the source
`byteorder::...::write_u32(&mut bytes[i..i + 4], len)`). -/
def writeU32At (bytes : List Nat) (i : Nat) (w : List Nat) : List Nat :=
  bytes.take i ++ w ++ bytes.drop (i + 4)

mutual

/-- Modelled from the spec: `Variant::encode_value_into` — dispatch the
value to its kind's `encode_into`: leaves pad to their alignment and
append their payload in the context's byte order (§4.4); the array kind
runs the source `Array::encode_into` body (`encode_array_into`). -/
def encode_value_into : Variant → List Nat → EncodingContext → List Nat
  | .u8 v, bytes, _ => bytes ++ [v % 256]
  | .i32 v, bytes, ctx =>
    addPadding 4 bytes ++ orderBytes ctx.order (bytes4 (ofSigned 32 v))
  | .u32 v, bytes, ctx =>
    addPadding 4 bytes ++ orderBytes ctx.order (bytes4 v)
  | .i64 v, bytes, ctx =>
    addPadding 8 bytes ++ orderBytes ctx.order (bytes8 (ofSigned 64 v))
  | .array es, bytes, ctx => encode_array_into es bytes ctx

/-- Source `Array::encode_into` (lines 53-68), body shared with the
variant dispatch: pad to alignment 4, reserve 4 native-endian zero
bytes, encode each element with the child context, then back-patch the
reserved bytes with the native-endian element-payload length. -/
def encode_array_into (es : List Variant) (bytes : List Nat)
    (ctx : EncodingContext) : List Nat :=
  let bytes1 := addPadding 4 bytes
  let len_position := bytes1.length
  let bytes2 := bytes1 ++ u32ToBytes nativeOrder 0
  let n_bytes_before := bytes2.length
  let bytes3 := encode_elems es bytes2 ctx.copy_for_child
  let len := usize_to_u32 (bytes3.length - n_bytes_before)
  writeU32At bytes3 len_position (u32ToBytes nativeOrder len)

/-- The element loop of `Array::encode_into`: encode each element in
insertion order into the growing buffer. -/
def encode_elems : List Variant → List Nat → EncodingContext → List Nat
  | [], bytes, _ => bytes
  | e :: es, bytes, ctx => encode_elems es (encode_value_into e bytes ctx) ctx

end

/-- Source `Array::encode_into` as a method of `Array` (the mutual body
is `encode_array_into`). -/
def Array.encode_into (a : Array) (bytes : List Nat)
    (ctx : EncodingContext) : List Nat :=
  encode_array_into a.elems bytes ctx

/-- Modelled from the spec: `slice_data_simple` of a fixed-size leaf —
the sub-view holding the value's own padding plus its payload, or
`InsufficientData` when the buffer is shorter (§4.4). -/
def slice_data_simple (size align : Nat) (data : SharedData) :
    Except VariantError SharedData :=
  let p := padAmt data.position align
  if data.len < p + size then .error .InsufficientData
  else .ok (data.head (p + size))

/-- Modelled from the spec: `u32::slice_data_simple`. -/
def u32_slice_data_simple (data : SharedData) (_ctx : EncodingContext) :
    Except VariantError SharedData :=
  slice_data_simple 4 4 data

/-- Modelled from the spec: `u32::decode_simple` — skip the value's
padding and read 4 bytes in the context's byte order (§6: a
byte-order-aware fixed-width integer codec). -/
def u32_decode_simple (data : SharedData) (ctx : EncodingContext) :
    Except VariantError Nat :=
  let p := padAmt data.position 4
  if data.len < p + 4 then .error .InsufficientData
  else .ok (readNat ctx.order ((data.bytes.drop p).take 4))

mutual

/-- Modelled from the spec: `variant_type::slice_data` — the registry
dispatch from the leading signature character to the kind's `slice_data`
(§9): `a` to the source `Array::slice_data`, scalar characters to the
leaf extent rule, others to `IncorrectType`. -/
def vt_slice_data (data : SharedData) (sig : List Char)
    (ctx : EncodingContext) : Except VariantError SharedData :=
  match sig with
  | [] => .error .InsufficientData
  | c :: rest =>
    if c = 'a' then Array.slice_data data (c :: rest) ctx
    else
      match scalarInfo c with
      | some (sz, al) => slice_data_simple sz al data
      | none => .error .IncorrectType
termination_by (sig.length, 1, 0)
decreasing_by
  simp_wf
  exact Prod.Lex.right _ (Prod.Lex.left _ _ (by omega))

/-- Source `Array::slice_data` (lines 70-104): check the signature,
slice the child signature, slice and read the 4-byte length field, then
repeatedly slice one child until `declared + 4` bytes are accumulated;
zero accumulation is `ExcessData`; the result is `data.head` of the
accumulated count. -/
def Array.slice_data (data : SharedData) (sig : List Char)
    (ctx : EncodingContext) : Except VariantError SharedData :=
  if h2 : sig.length < 2 then .error .InsufficientData
  else
    match ensure_correct_signature sig with
    | .error e => .error e
    | .ok _ =>
      match hcs : ZB.slice_signature (sig.drop 1) with
      | .error e => .error e
      | .ok child_signature =>
        match u32_slice_data_simple data ctx with
        | .error e => .error e
        | .ok len_slice =>
          match u32_decode_simple len_slice ctx with
          | .error e => .error e
          | .ok declared =>
            match slice_loop data (declared + 4) child_signature
                ctx.copy_for_child len_slice.len with
            | .error e => .error e
            | .ok extracted =>
              if extracted = 0 then .error .ExcessData
              else .ok (data.head extracted)
termination_by (sig.length, 0, 0)
decreasing_by
  simp_wf
  have hl := slice_signature_length hcs
  simp only [List.length_drop] at hl
  exact Prod.Lex.left _ _ (by omega)

/-- The while-loop of `Array::slice_data` (lines 88-98): slice one child
from the tail at `extracted`, accumulate its length, fail with
`InsufficientData` on overshoot. A child slice of zero length would make
the source loop run forever; that branch (provably unreachable, see
`vt_slice_data_ok_len`) is mapped to `InsufficientData`. -/
def slice_loop (data : SharedData) (len : Nat) (child_signature : List Char)
    (ctx : EncodingContext) (extracted : Nat) : Except VariantError Nat :=
  if h : extracted < len then
    match vt_slice_data (data.tail extracted) child_signature ctx with
    | .error e => .error e
    | .ok slice =>
      if hz : slice.len = 0 then .error .InsufficientData
      else if extracted + slice.len > len then .error .InsufficientData
      else slice_loop data len child_signature ctx (extracted + slice.len)
  else .ok extracted
termination_by (child_signature.length, 2, len - extracted)
decreasing_by
  · simp_wf
    exact Prod.Lex.right _ (Prod.Lex.left _ _ (by omega))
  · simp_wf
    exact Prod.Lex.right _ (Prod.Lex.right _ (by omega))

end

/-- Modelled from the spec: `u8::decode_simple` — one byte, no padding. -/
def u8_decode_simple (data : SharedData) : Except VariantError Nat :=
  if data.len < 1 then .error .InsufficientData
  else .ok (natOfBytes (data.bytes.take 1))

/-- Modelled from the spec: `i32::decode_simple` — skip padding, read 4
bytes in the context's order, two's-complement signed. -/
def i32_decode_simple (data : SharedData) (ctx : EncodingContext) :
    Except VariantError Int :=
  let p := padAmt data.position 4
  if data.len < p + 4 then .error .InsufficientData
  else .ok (toSigned 32 (readNat ctx.order ((data.bytes.drop p).take 4)))

/-- Modelled from the spec: `i64::decode_simple` — skip padding, read 8
bytes in the context's order, two's-complement signed. -/
def i64_decode_simple (data : SharedData) (ctx : EncodingContext) :
    Except VariantError Int :=
  let p := padAmt data.position 8
  if data.len < p + 8 then .error .InsufficientData
  else .ok (toSigned 64 (readNat ctx.order ((data.bytes.drop p).take 8)))

mutual

/-- Modelled from the spec: `Variant::from_data` — dispatch the leading
signature character to the kind's `decode` and wrap the result in the
union (§4.4, §9); a scalar kind's `decode` validates that the signature
is exactly its own character before reading. -/
def Variant.from_data (data : SharedData) (sig : List Char)
    (ctx : EncodingContext) : Except VariantError Variant :=
  match sig with
  | [] => .error .InsufficientData
  | c :: rest =>
    if c = 'a' then
      match Array.decodeRun data (c :: rest) ctx with
      | .error e => .error e
      | .ok r => .ok (Variant.array r.2)
    else if c = 'y' then
      if rest ≠ [] then .error .IncorrectType
      else (u8_decode_simple data).map Variant.u8
    else if c = 'i' then
      if rest ≠ [] then .error .IncorrectType
      else (i32_decode_simple data ctx).map Variant.i32
    else if c = 'u' then
      if rest ≠ [] then .error .IncorrectType
      else (u32_decode_simple data ctx).map Variant.u32
    else if c = 'x' then
      if rest ≠ [] then .error .IncorrectType
      else (i64_decode_simple data ctx).map Variant.i64
    else .error .IncorrectType
termination_by (sig.length, 1, 0)
decreasing_by
  simp_wf
  exact Prod.Lex.right _ (Prod.Lex.left _ _ (by omega))

/-- Source `Array::decode` (lines 106-145) with its loop state made
visible: returns the final accumulated byte count `extracted` together
with the decoded elements; `Array.decode` below projects the elements.
Checks buffer and signature, reads the 4-byte length field past the
padding, then repeatedly slices and decodes one child until
`declared + 4` bytes are accumulated. -/
def Array.decodeRun (data : SharedData) (sig : List Char)
    (ctx : EncodingContext) :
    Except VariantError (Nat × List Variant) :=
  let padding := padAmt data.position 4
  if data.len < padding + 4 ∨ sig.length < 2 then .error .InsufficientData
  else
    match ensure_correct_signature sig with
    | .error e => .error e
    | .ok _ =>
      match hcs : ZB.slice_signature (sig.drop 1) with
      | .error e => .error e
      | .ok child_signature =>
        match u32_decode_simple (data.subset padding (padding + 4)) ctx with
        | .error e => .error e
        | .ok declared =>
          match decode_loop data (declared + 4) child_signature
              ctx.copy_for_child (padding + 4) [] with
          | .error e => .error e
          | .ok r =>
            if r.1 = 0 then .error .ExcessData
            else .ok r
termination_by (sig.length, 0, 0)
decreasing_by
  simp_wf
  have hl := slice_signature_length hcs
  simp only [List.length_drop] at hl
  exact Prod.Lex.left _ _ (by omega)

/-- The while-loop of `Array::decode` (lines 125-138): slice one child
from the tail at `extracted`, check the overshoot, decode the child from
its slice and push it. As in `slice_loop`, a zero-length child slice
(where the source would loop forever; unreachable by
`vt_slice_data_ok_len`) is mapped to `InsufficientData`. -/
def decode_loop (data : SharedData) (len : Nat)
    (child_signature : List Char) (ctx : EncodingContext)
    (extracted : Nat) (elements : List Variant) :
    Except VariantError (Nat × List Variant) :=
  if h : extracted < len then
    match vt_slice_data (data.tail extracted) child_signature ctx with
    | .error e => .error e
    | .ok slice =>
      if hz : slice.len = 0 then .error .InsufficientData
      else if extracted + slice.len > len then .error .InsufficientData
      else
        match Variant.from_data slice child_signature ctx with
        | .error e => .error e
        | .ok element =>
          decode_loop data len child_signature ctx (extracted + slice.len)
            (elements ++ [element])
  else .ok (extracted, elements)
termination_by (child_signature.length, 2, len - extracted)
decreasing_by
  · simp_wf
    exact Prod.Lex.right _ (Prod.Lex.left _ _ (by omega))
  · simp_wf
    exact Prod.Lex.right _ (Prod.Lex.right _ (by omega))

end

/-- Source `Array::decode` (lines 106-145): the decoded array; the byte
count accumulated by the run is dropped here. -/
def Array.decode (data : SharedData) (sig : List Char)
    (ctx : EncodingContext) : Except VariantError Array :=
  match Array.decodeRun data sig ctx with
  | .error e => .error e
  | .ok r => .ok (Array.new_from_vec r.2)

/-- The concrete kinds a `Variant` can hold, used to index the
`VariantType` conversions (`T` of `TryInto<Vec<T>>`). -/
inductive Kind where
  | u8
  | i32
  | u32
  | i64
  | array
deriving DecidableEq, Repr

/-- The Rust payload type of each kind (`u8`, `i32`, …, and the inner
vector of `Array`). -/
def Kind.type : Kind → Type
  | .u8 => Nat
  | .i32 => Int
  | .u32 => Nat
  | .i64 => Int
  | .array => List Variant

/-- The kind tag of a variant value. -/
def Variant.kind : Variant → Kind
  | .u8 _ => .u8
  | .i32 _ => .i32
  | .u32 _ => .u32
  | .i64 _ => .i64
  | .array _ => .array

/-- Modelled from the spec: `T::take_from_variant` — downcast the union
to the concrete kind, `IncorrectType` on mismatch (§4.4; the source
shows the `Array` instance at lines 181-187). -/
def take_from_variant : (k : Kind) → Variant → Except VariantError k.type
  | .u8, .u8 v => .ok v
  | .i32, .i32 v => .ok v
  | .u32, .u32 v => .ok v
  | .i64, .i64 v => .ok v
  | .array, .array es => .ok es
  | _, _ => .error .IncorrectType

/-- Modelled from the spec: `T::to_variant` — wrap a concrete value back
into the union (the source shows the `Array` instance at line 197). -/
def to_variant : (k : Kind) → k.type → Variant
  | .u8, v => .u8 v
  | .i32, v => .i32 v
  | .u32, v => .u32 v
  | .i64, v => .i64 v
  | .array, es => .array es

/-- Source `TryInto<Vec<T>> for Array` (lines 202-214): downcast every
element in order, propagating the first failure. -/
def try_into_vec (k : Kind) : List Variant → Except VariantError (List k.type)
  | [] => .ok []
  | v :: rest =>
    match take_from_variant k v with
    | .error e => .error e
    | .ok t =>
      match try_into_vec k rest with
      | .error e => .error e
      | .ok ts => .ok (t :: ts)

/-- Source `TryInto<Vec<T>> for Array` as a method of `Array`. -/
def Array.try_into (k : Kind) (a : Array) :
    Except VariantError (List k.type) :=
  try_into_vec k a.take_inner

mutual

/-- Well-typedness of a value against a signature: the value has the
kind the signature names, its payload respects the Rust machine-integer
bounds, and array elements all conform to the element signature. This is
the spec's "uniformly typed" hypothesis made precise. -/
def conforms : Variant → List Char → Bool
  | .u8 v, ['y'] => decide (v < 256)
  | .i32 v, ['i'] => decide (-2147483648 ≤ v) && decide (v < 2147483648)
  | .u32 v, ['u'] => decide (v < 4294967296)
  | .i64 v, ['x'] =>
    decide (-9223372036854775808 ≤ v) && decide (v < 9223372036854775808)
  | .array es, 'a' :: cs => conformsList es cs
  | _, _ => false

/-- All elements of a list conform to the signature. -/
def conformsList : List Variant → List Char → Bool
  | [], _ => true
  | e :: es, cs => conforms e cs && conformsList es cs

end

/-! ## Basic facts about padding and slicing extents -/

/-- Padding is smaller than the (positive) alignment. -/
theorem padAmt_lt {align : Nat} (pos : Nat) (h : 0 < align) :
    padAmt pos align < align :=
  Nat.mod_lt _ h

/-- A position advanced by its padding is aligned. -/
theorem padAmt_add_mod {align : Nat} (pos : Nat) (h : 0 < align) :
    (pos + padAmt pos align) % align = 0 := by
  unfold padAmt
  rcases Nat.eq_zero_or_pos (pos % align) with h0 | h0
  · simp [h0, Nat.mod_self, Nat.add_mod, h0]
  · have hlt : pos % align < align := Nat.mod_lt _ h
    have hsub : (align - pos % align) % align = align - pos % align :=
      Nat.mod_eq_of_lt (by omega)
    rw [hsub]
    have hdm := Nat.div_add_mod pos align
    have hdist : align * (pos / align + 1) = align * (pos / align) + align := by
      ring
    have h2 : pos + (align - pos % align) = align * (pos / align + 1) := by
      omega
    rw [h2, Nat.mul_mod_right]

/-- The slice loop never shrinks the accumulated count. -/
theorem slice_loop_ge {data : SharedData} {len : Nat} {cs : List Char}
    {ctx : EncodingContext} :
    ∀ k E F, len - E ≤ k → slice_loop data len cs ctx E = .ok F → E ≤ F := by
  intro k
  induction k with
  | zero =>
    intro E F hk h
    rw [slice_loop.eq_def] at h
    split at h
    · omega
    · simp at h
      omega
  | succ k ih =>
    intro E F hk h
    rw [slice_loop.eq_def] at h
    split at h
    · split at h
      · simp at h
      · split at h
        · simp at h
        · split at h
          · simp at h
          · rename_i hE x s heq hz hover
            have := ih (E + s.len) F (by omega) h
            omega
    · simp at h
      omega

/-- View length of `head`. -/
theorem SharedData.len_head (d : SharedData) (n : Nat) :
    (d.head n).len = min n d.len := by
  simp [SharedData.head, SharedData.len]

/-- View length of `tail`. -/
theorem SharedData.len_tail (d : SharedData) (n : Nat) :
    (d.tail n).len = d.len - n := by
  simp [SharedData.tail, SharedData.len]

/-- Every scalar kind occupies at least one byte. -/
theorem scalarInfo_size_pos {c : Char} {sz al : Nat}
    (h : scalarInfo c = some (sz, al)) : 1 ≤ sz := by
  unfold scalarInfo at h
  split at h <;>
    first
      | (simp only [Option.some.injEq, Prod.mk.injEq] at h
         omega)
      | simp at h

/-- A successful extent slice is non-empty and no longer than its
input view; in particular the loops of `Array::slice_data` and
`Array::decode` always make progress. -/
theorem vt_slice_data_ok_len {d : SharedData} {sig : List Char}
    {ctx : EncodingContext} {s : SharedData}
    (h : vt_slice_data d sig ctx = .ok s) : 1 ≤ s.len ∧ s.len ≤ d.len := by
  rw [vt_slice_data.eq_def] at h
  split at h
  · simp at h
  · split at h
    · -- array kind
      rw [Array.slice_data.eq_def] at h
      split at h
      · simp at h
      · split at h
        · simp at h
        · split at h
          · simp at h
          · split at h
            · simp at h
            · rename_i ls hls
              split at h
              · simp at h
              · split at h
                · simp at h
                · rename_i F hloop
                  split at h
                  · simp at h
                  · rename_i hne
                    simp only [Except.ok.injEq] at h
                    subst h
                    simp only [u32_slice_data_simple, slice_data_simple] at hls
                    split at hls
                    · simp at hls
                    · rename_i hge
                      simp only [SharedData.len_head]
                      omega
    · -- scalar kind
      split at h
      · rename_i sz al hsi
        simp only [slice_data_simple] at h
        split at h
        · simp at h
        · rename_i hge
          simp only [Except.ok.injEq] at h
          subst h
          have hsz := scalarInfo_size_pos hsi
          simp only [SharedData.len_head]
          omega
      · simp at h

/-- The slice loop never runs past the end of the buffer. -/
theorem slice_loop_le {data : SharedData} {len : Nat} {cs : List Char}
    {ctx : EncodingContext} :
    ∀ k E F, len - E ≤ k → E ≤ data.len →
      slice_loop data len cs ctx E = .ok F → F ≤ data.len := by
  intro k
  induction k with
  | zero =>
    intro E F hk hE h
    rw [slice_loop.eq_def] at h
    split at h
    · omega
    · simp at h
      omega
  | succ k ih =>
    intro E F hk hE h
    rw [slice_loop.eq_def] at h
    split at h
    · split at h
      · simp at h
      · split at h
        · simp at h
        · split at h
          · simp at h
          · rename_i hlt x s heq hz hover
            have hs := vt_slice_data_ok_len heq
            rw [SharedData.len_tail] at hs
            exact ih (E + s.len) F (by omega) (by omega) h
    · simp at h
      omega

/-- The extent loop and the decode loop accumulate the same byte count
whenever both succeed. -/
theorem loops_agree {data : SharedData} {len : Nat} {cs : List Char}
    {ctx : EncodingContext} :
    ∀ k E F r els, len - E ≤ k →
      slice_loop data len cs ctx E = .ok F →
      decode_loop data len cs ctx E els = .ok r → r.1 = F := by
  intro k
  induction k with
  | zero =>
    intro E F r els hk h hd
    rw [slice_loop.eq_def] at h
    rw [decode_loop.eq_def] at hd
    split at h
    · omega
    · rename_i hge
      rw [dif_neg hge] at hd
      simp only [Except.ok.injEq] at h hd
      subst hd
      simpa using h
  | succ k ih =>
    intro E F r els hk h hd
    rw [slice_loop.eq_def] at h
    rw [decode_loop.eq_def] at hd
    split at h
    · rename_i hlt
      rw [dif_pos hlt] at hd
      split at h
      · simp at h
      · rename_i x s heq
        split at hd
        · rename_i e' heq'
          rw [heq] at heq'
          simp at heq'
        · rename_i s' heq'
          rw [heq] at heq'
          simp only [Except.ok.injEq] at heq'
          subst heq'
          split at h
          · simp at h
          · rename_i hz
            rw [dif_neg hz] at hd
            split at h
            · simp at h
            · rename_i hover
              rw [if_neg hover] at hd
              split at hd
              · simp at hd
              · rename_i el hel
                exact ih (E + s.len) F r (els ++ [el]) (by omega) h hd
    · rename_i hge
      rw [dif_neg hge] at hd
      simp only [Except.ok.injEq] at h hd
      subst hd
      simpa using h

/-- Padding at an aligned position is zero. -/
theorem padAmt_zero {align pos : Nat} (h : pos % align = 0) :
    padAmt pos align = 0 := by
  unfold padAmt
  simp [h]

/-- Reading the length field from the head view (as `slice_data` does)
and from the subset view (as `decode` does) extracts the same 4 bytes
past the array's padding. -/
theorem u32_decode_head_subset (d : SharedData) (ctx : EncodingContext)
    (h : padAmt d.pos 4 + 4 ≤ d.len) :
    u32_decode_simple (d.head (padAmt d.pos 4 + 4)) ctx =
      .ok (readNat ctx.order ((d.bytes.drop (padAmt d.pos 4)).take 4)) ∧
    u32_decode_simple (d.subset (padAmt d.pos 4) (padAmt d.pos 4 + 4)) ctx =
      .ok (readNat ctx.order ((d.bytes.drop (padAmt d.pos 4)).take 4)) := by
  have hlen : d.bytes.length = d.len := rfl
  constructor
  · unfold u32_decode_simple
    rw [if_neg]
    · congr 1
      congr 1
      simp only [SharedData.head, SharedData.position]
      rw [List.drop_take]
      rw [List.take_take]
      congr 1
      omega
    · simp only [SharedData.head, SharedData.position, SharedData.len,
        List.length_take]
      omega
  · unfold u32_decode_simple
    have hpos : (d.subset (padAmt d.pos 4) (padAmt d.pos 4 + 4)).position % 4 = 0 := by
      simp only [SharedData.subset, SharedData.position]
      exact padAmt_add_mod d.pos (by omega)
    rw [if_neg]
    · congr 1
      congr 1
      rw [padAmt_zero hpos]
      simp only [SharedData.subset]
      rw [List.drop_take, List.drop_zero, List.take_take]
      congr 1
      omega
    · rw [padAmt_zero hpos]
      simp only [SharedData.subset, SharedData.len, List.length_drop,
        List.length_take]
      omega

/-- Evaluation rule for `Array.decodeRun` from its constituent results. -/
theorem decodeRun_eval {data : SharedData} {sig : List Char}
    {ctx : EncodingContext} {cs : List Char} {declared : Nat}
    {out : Nat × List Variant}
    (h2 : ¬(data.len < padAmt data.pos 4 + 4 ∨ sig.length < 2))
    (hens : ensure_correct_signature sig = .ok ())
    (hcs : ZB.slice_signature (sig.drop 1) = .ok cs)
    (hdecl : u32_decode_simple
      (data.subset (padAmt data.pos 4) (padAmt data.pos 4 + 4)) ctx =
      .ok declared)
    (hloop : decode_loop data (declared + 4) cs ctx.copy_for_child
      (padAmt data.pos 4 + 4) [] = .ok out)
    (hne : out.1 ≠ 0) :
    Array.decodeRun data sig ctx = .ok out := by
  rw [Array.decodeRun.eq_def]
  simp only [SharedData.position]
  rw [if_neg h2]
  split
  · rename_i e he
    rw [hens] at he
    exact absurd he (by simp)
  · split
    · rename_i e he
      rw [hcs] at he
      exact absurd he (by simp)
    · rename_i cs' he
      rw [hcs] at he
      simp only [Except.ok.injEq] at he
      subst he
      rw [hdecl]
      simp only []
      rw [hloop]
      simp only []
      rw [if_neg hne]

/-- Error propagation out of `Array.decodeRun` when the element loop
fails. -/
theorem decodeRun_eval_err {data : SharedData} {sig : List Char}
    {ctx : EncodingContext} {cs : List Char} {declared : Nat}
    {e : VariantError}
    (h2 : ¬(data.len < padAmt data.pos 4 + 4 ∨ sig.length < 2))
    (hens : ensure_correct_signature sig = .ok ())
    (hcs : ZB.slice_signature (sig.drop 1) = .ok cs)
    (hdecl : u32_decode_simple
      (data.subset (padAmt data.pos 4) (padAmt data.pos 4 + 4)) ctx =
      .ok declared)
    (hloop : decode_loop data (declared + 4) cs ctx.copy_for_child
      (padAmt data.pos 4 + 4) [] = .error e) :
    Array.decodeRun data sig ctx = .error e := by
  rw [Array.decodeRun.eq_def]
  simp only [SharedData.position]
  rw [if_neg h2]
  split
  · rename_i e' he
    rw [hens] at he
    exact absurd he (by simp)
  · split
    · rename_i e' he
      rw [hcs] at he
      exact absurd he (by simp)
    · rename_i cs' he
      rw [hcs] at he
      simp only [Except.ok.injEq] at he
      subst he
      rw [hdecl]
      simp only []
      rw [hloop]

/-- `Array.decode` forwards any `decodeRun` error unchanged. -/
theorem decode_of_decodeRun_err {data : SharedData} {sig : List Char}
    {ctx : EncodingContext} {e : VariantError}
    (h : Array.decodeRun data sig ctx = .error e) :
    Array.decode data sig ctx = .error e := by
  unfold Array.decode
  rw [h]

/-- Inversion rule for a successful `Array.decodeRun`. -/
theorem decodeRun_inv {data : SharedData} {sig : List Char}
    {ctx : EncodingContext} {out : Nat × List Variant}
    (h : Array.decodeRun data sig ctx = .ok out) :
    ¬(data.len < padAmt data.pos 4 + 4 ∨ sig.length < 2) ∧
    ensure_correct_signature sig = .ok () ∧
    ∃ cs declared,
      ZB.slice_signature (sig.drop 1) = .ok cs ∧
      u32_decode_simple
        (data.subset (padAmt data.pos 4) (padAmt data.pos 4 + 4)) ctx =
        .ok declared ∧
      decode_loop data (declared + 4) cs ctx.copy_for_child
        (padAmt data.pos 4 + 4) [] = .ok out ∧
      out.1 ≠ 0 := by
  rw [Array.decodeRun.eq_def] at h
  simp only [SharedData.position] at h
  split at h
  · simp at h
  · rename_i hcond
    split at h
    · simp at h
    · rename_i u hens
      split at h
      · simp at h
      · rename_i cs hcs
        split at h
        · simp at h
        · rename_i declared hdecl
          split at h
          · simp at h
          · rename_i r0 hloop
            split at h
            · simp at h
            · rename_i hne
              simp only [Except.ok.injEq] at h
              subst h
              have hens' : ensure_correct_signature sig = .ok () := by
                rw [hens]
              exact ⟨hcond, hens', cs, declared, hcs, hdecl, hloop, hne⟩

/-- Evaluation rule for `Array.slice_data` from its constituent results. -/
theorem slice_data_eval {data : SharedData} {sig : List Char}
    {ctx : EncodingContext} {cs : List Char} {declared F : Nat}
    (h2 : ¬sig.length < 2)
    (hens : ensure_correct_signature sig = .ok ())
    (hcs : ZB.slice_signature (sig.drop 1) = .ok cs)
    (hlen : padAmt data.pos 4 + 4 ≤ data.len)
    (hdecl : u32_decode_simple (data.head (padAmt data.pos 4 + 4)) ctx =
      .ok declared)
    (hloop : slice_loop data (declared + 4) cs ctx.copy_for_child
      (padAmt data.pos 4 + 4) = .ok F)
    (hne : F ≠ 0) :
    Array.slice_data data sig ctx = .ok (data.head F) := by
  have hslice : u32_slice_data_simple data ctx =
      .ok (data.head (padAmt data.pos 4 + 4)) := by
    simp only [u32_slice_data_simple, slice_data_simple, SharedData.position]
    rw [if_neg (by omega)]
  have hheadlen : (data.head (padAmt data.pos 4 + 4)).len =
      padAmt data.pos 4 + 4 := by
    rw [SharedData.len_head]
    omega
  rw [Array.slice_data.eq_def]
  rw [dif_neg h2]
  split
  · rename_i e he
    rw [hens] at he
    exact absurd he (by simp)
  · split
    · rename_i e he
      rw [hcs] at he
      exact absurd he (by simp)
    · rename_i cs' he
      rw [hcs] at he
      simp only [Except.ok.injEq] at he
      subst he
      rw [hslice]
      simp only []
      rw [hdecl]
      simp only []
      rw [hheadlen, hloop]
      simp only []
      rw [if_neg hne]

/-- Inversion rule for a successful `Array.slice_data`. -/
theorem slice_data_inv {data : SharedData} {sig : List Char}
    {ctx : EncodingContext} {s : SharedData}
    (h : Array.slice_data data sig ctx = .ok s) :
    ¬sig.length < 2 ∧
    ensure_correct_signature sig = .ok () ∧
    padAmt data.pos 4 + 4 ≤ data.len ∧
    ∃ cs declared F,
      ZB.slice_signature (sig.drop 1) = .ok cs ∧
      u32_decode_simple (data.head (padAmt data.pos 4 + 4)) ctx =
        .ok declared ∧
      slice_loop data (declared + 4) cs ctx.copy_for_child
        (padAmt data.pos 4 + 4) = .ok F ∧
      F ≠ 0 ∧ s = data.head F := by
  rw [Array.slice_data.eq_def] at h
  split at h
  · simp at h
  · rename_i h2
    split at h
    · simp at h
    · rename_i u hens
      split at h
      · simp at h
      · rename_i cs hcs
        split at h
        · simp at h
        · rename_i ls hls
          split at h
          · simp at h
          · rename_i declared hdecl
            split at h
            · simp at h
            · rename_i F hloop
              split at h
              · simp at h
              · rename_i hne
                simp only [Except.ok.injEq] at h
                have hls' := hls
                simp only [u32_slice_data_simple, slice_data_simple,
                  SharedData.position] at hls'
                split at hls'
                · simp at hls'
                · rename_i hge
                  simp only [Except.ok.injEq] at hls'
                  subst hls'
                  have hlen : padAmt data.pos 4 + 4 ≤ data.len := by omega
                  have hheadlen : (data.head (padAmt data.pos 4 + 4)).len =
                      padAmt data.pos 4 + 4 := by
                    rw [SharedData.len_head]
                    omega
                  rw [hheadlen] at hloop
                  have hens' : ensure_correct_signature sig = .ok () := by
                    rw [hens]
                  exact ⟨h2, hens', hlen, cs, declared, F, hcs, hdecl, hloop,
                    hne, h.symm⟩

/-! ## Claim C2: a zero length field -/

/-- Helper: a validated array signature has a sliceable child. -/
theorem ensure_ok_child {cs : List Char}
    (hsig : ensure_correct_signature ('a' :: cs) = .ok ()) :
    ∃ r, ZB.slice_signature cs = .ok r ∧ r.length = cs.length := by
  unfold ensure_correct_signature at hsig
  rw [show Array.slice_signature ('a' :: cs) =
      (ZB.slice_signature cs).map (fun s => 'a' :: s) from rfl] at hsig
  cases hr : ZB.slice_signature cs with
  | error e =>
    rw [hr] at hsig
    simp [Except.map] at hsig
  | ok r =>
    rw [hr] at hsig
    simp only [Except.map] at hsig
    split at hsig
    · simp at hsig
    · rename_i hlen
      simp only [List.length_cons, not_not] at hlen
      exact ⟨r, rfl, by omega⟩

/-- Helper: a validated array signature has a non-empty child text. -/
theorem ensure_ok_child_ne {cs : List Char}
    (hsig : ensure_correct_signature ('a' :: cs) = .ok ()) :
    0 < cs.length := by
  obtain ⟨r, hr, _⟩ := ensure_ok_child hsig
  cases cs with
  | nil => simp [slice_signature] at hr
  | cons c cs' => simp

/-- C2 counterexample: the buffer `[0, 0, 0, 0]` (length field 0, no
element bytes) with element signature `y` — whose values always occupy
one byte — is accepted by both `Array::decode` (as the empty array) and
`Array::slice_data` (as the 4-byte header view); neither rejects it
with `ExcessData` as the claim requires. -/
theorem C2_counterexample :
    Array.decode ⟨[0, 0, 0, 0], 0⟩ ['a', 'y'] ⟨.little⟩ = .ok ⟨[]⟩ ∧
    Array.slice_data ⟨[0, 0, 0, 0], 0⟩ ['a', 'y'] ⟨.little⟩ =
      .ok ⟨[0, 0, 0, 0], 0⟩ ∧
    Array.decode ⟨[0, 0, 0, 0], 0⟩ ['a', 'y'] ⟨.little⟩ ≠
      .error .ExcessData ∧
    Array.slice_data ⟨[0, 0, 0, 0], 0⟩ ['a', 'y'] ⟨.little⟩ ≠
      .error .ExcessData := by
  have h1 : Array.decode ⟨[0, 0, 0, 0], 0⟩ ['a', 'y'] ⟨.little⟩ = .ok ⟨[]⟩ := by
    simp [Array.decode, Array.decodeRun, decode_loop, padAmt, SharedData.len,
      SharedData.position, SharedData.subset, ensure_correct_signature,
      Array.slice_signature, slice_signature, scalarInfo, u32_decode_simple,
      readNat, orderBytes, natOfBytes, EncodingContext.copy_for_child,
      Except.map, Array.new_from_vec]
  have h2 : Array.slice_data ⟨[0, 0, 0, 0], 0⟩ ['a', 'y'] ⟨.little⟩ =
      .ok ⟨[0, 0, 0, 0], 0⟩ := by
    simp [Array.slice_data, slice_loop, padAmt, SharedData.len,
      SharedData.position, SharedData.head, ensure_correct_signature,
      Array.slice_signature, slice_signature, scalarInfo, u32_decode_simple,
      u32_slice_data_simple, slice_data_simple, readNat, orderBytes,
      natOfBytes, EncodingContext.copy_for_child, Except.map]
  exact ⟨h1, h2, by rw [h1]; simp, by rw [h2]; simp⟩

/-- C2 amended: a buffer whose front (after the array's padding) is a
4-byte length field holding 0 with no element bytes is accepted:
`Array::decode` returns the empty array and `Array::slice_data` returns
the `padding + 4`-byte header view. The `extracted == 0` checks cannot
fire because `extracted` starts at `padding + 4` in both functions. -/
theorem C2_zero_length_accepted (data : SharedData) (cs : List Char)
    (ctx : EncodingContext)
    (hsig : ensure_correct_signature ('a' :: cs) = .ok ())
    (hlen : padAmt data.pos 4 + 4 ≤ data.len)
    (hread : readNat ctx.order
      ((data.bytes.drop (padAmt data.pos 4)).take 4) = 0) :
    Array.decode data ('a' :: cs) ctx = .ok Array.new ∧
    Array.slice_data data ('a' :: cs) ctx =
      .ok (data.head (padAmt data.pos 4 + 4)) := by
  obtain ⟨r, hr, hrlen⟩ := ensure_ok_child hsig
  have hcl : 0 < cs.length := ensure_ok_child_ne hsig
  have hu32s : u32_decode_simple
      (data.subset (padAmt data.pos 4) (padAmt data.pos 4 + 4)) ctx =
      .ok 0 := by
    rw [(u32_decode_head_subset data ctx hlen).2, hread]
  have hu32h : u32_decode_simple (data.head (padAmt data.pos 4 + 4)) ctx =
      .ok 0 := by
    rw [(u32_decode_head_subset data ctx hlen).1, hread]
  have hploop : decode_loop data (0 + 4) r ctx.copy_for_child
      (padAmt data.pos 4 + 4) [] = .ok (padAmt data.pos 4 + 4, []) := by
    rw [decode_loop.eq_def, dif_neg (by omega)]
  have hsloop : slice_loop data (0 + 4) r ctx.copy_for_child
      (padAmt data.pos 4 + 4) = .ok (padAmt data.pos 4 + 4) := by
    rw [slice_loop.eq_def, dif_neg (by omega)]
  have hcs' : ZB.slice_signature (('a' :: cs).drop 1) = .ok r := by
    simpa using hr
  constructor
  · unfold Array.decode
    rw [@decodeRun_eval data ('a' :: cs) ctx r 0
      (padAmt data.pos 4 + 4, [])
      (by simp only [List.length_cons]; omega) hsig hcs' hu32s hploop
      (by simp)]
    simp [Array.new_from_vec, Array.new]
  · exact @slice_data_eval data ('a' :: cs) ctx r 0
      (padAmt data.pos 4 + 4)
      (by simp only [List.length_cons]; omega) hsig hcs' hlen hu32h hsloop
      (by omega)
/-- Witness for C2's amended theorem at the concrete zero-length `"au"`
buffer `[0, 0, 0, 0]`. -/
theorem C2_zero_length_accepted_witness :
    Array.decode ⟨[0, 0, 0, 0], 0⟩ ['a', 'u'] ⟨.little⟩ = .ok Array.new ∧
    Array.slice_data ⟨[0, 0, 0, 0], 0⟩ ['a', 'u'] ⟨.little⟩ =
      .ok (SharedData.head ⟨[0, 0, 0, 0], 0⟩ (padAmt 0 4 + 4)) :=
  C2_zero_length_accepted ⟨[0, 0, 0, 0], 0⟩ ['u'] ⟨.little⟩
    (by simp [ensure_correct_signature, Array.slice_signature,
      slice_signature, scalarInfo, Except.map])
    (by simp [SharedData.len, padAmt])
    (by simp [readNat, orderBytes, natOfBytes, padAmt])

/-! ## Claim C6: overshoot is rejected with InsufficientData -/

/-- C6: whenever the next child slice would push the accumulated count
past `len = declared + 4`, both the extent loop of `Array::slice_data`
and the decode loop of `Array::decode` fail with `InsufficientData`,
and a failing run of `Array::decode` surfaces the error directly — no
partial `Array` is observable. -/
theorem C6_overshoot_insufficient (data : SharedData) (len : Nat)
    (cs : List Char) (ctx : EncodingContext) (E : Nat) (s : SharedData)
    (elements : List Variant)
    (hE : E < len)
    (hs : vt_slice_data (data.tail E) cs ctx = .ok s)
    (hover : len < E + s.len) :
    slice_loop data len cs ctx E = .error .InsufficientData ∧
    decode_loop data len cs ctx E elements = .error .InsufficientData ∧
    ∀ (d : SharedData) (sg : List Char) (e : VariantError),
      Array.decodeRun d sg ctx = .error e →
      Array.decode d sg ctx = .error e := by
  refine ⟨?_, ?_, ?_⟩
  · rw [slice_loop.eq_def, dif_pos hE, hs]
    by_cases hz : s.len = 0
    · simp [hz]
    · simp only []
      rw [dif_neg hz, if_pos (by omega)]
  · rw [decode_loop.eq_def, dif_pos hE, hs]
    by_cases hz : s.len = 0
    · simp [hz]
    · simp only []
      rw [dif_neg hz, if_pos (by omega)]
  · intro d sg e h
    unfold Array.decode
    rw [h]

/-- Witness for C6 at a concrete truncated `"au"` buffer: declared
length 2, so `len = 6`, but the `u32` element at offset 4 occupies 4
bytes, overshooting to 8. -/
theorem C6_overshoot_insufficient_witness :
    slice_loop ⟨[2, 0, 0, 0, 1, 1, 1, 1], 0⟩ 6 ['u'] ⟨.little⟩ 4 =
      .error .InsufficientData ∧
    decode_loop ⟨[2, 0, 0, 0, 1, 1, 1, 1], 0⟩ 6 ['u'] ⟨.little⟩ 4 [] =
      .error .InsufficientData := by
  have h := C6_overshoot_insufficient ⟨[2, 0, 0, 0, 1, 1, 1, 1], 0⟩ 6 ['u']
    ⟨.little⟩ 4 ⟨[1, 1, 1, 1], 4⟩ []
    (by omega)
    (by simp [vt_slice_data, slice_data_simple, scalarInfo, padAmt,
      SharedData.tail, SharedData.head, SharedData.position, SharedData.len])
    (by simp [SharedData.len])
  exact ⟨h.1, h.2.1⟩

/-! ## Claim C4: extent agreement between slice_data and decode -/

/-- C4: whenever both `Array::slice_data` and `Array::decode` succeed on
the same buffer, signature and context, the length of the returned view
equals the byte count accumulated by the decode run (its final
`extracted`, the number of bytes the decode consumed). -/
theorem C4_extent_agreement (data : SharedData) (sig : List Char)
    (ctx : EncodingContext) (s : SharedData) (out : Nat × List Variant)
    (hs : Array.slice_data data sig ctx = .ok s)
    (hd : Array.decodeRun data sig ctx = .ok out) :
    s.len = out.1 := by
  obtain ⟨h2, hens, hlen, cs, declared, F, hcs, hdecl, hloop, hne, hsval⟩ :=
    slice_data_inv hs
  obtain ⟨hcond, hens', cs', declared', hcs', hdecl', hloop', hne'⟩ :=
    decodeRun_inv hd
  rw [hcs] at hcs'
  simp only [Except.ok.injEq] at hcs'
  subst hcs'
  rw [(u32_decode_head_subset data ctx hlen).1] at hdecl
  rw [(u32_decode_head_subset data ctx hlen).2] at hdecl'
  simp only [Except.ok.injEq] at hdecl hdecl'
  subst hdecl
  subst hdecl'
  have hF := loops_agree (readNat ctx.order
      ((data.bytes.drop (padAmt data.pos 4)).take 4) + 4)
    (padAmt data.pos 4 + 4) F out [] (by omega) hloop hloop'
  have hFle : F ≤ data.len :=
    slice_loop_le (readNat ctx.order
        ((data.bytes.drop (padAmt data.pos 4)).take 4) + 4)
      (padAmt data.pos 4 + 4) F (by omega) (by omega) hloop
  rw [hsval, SharedData.len_head]
  omega

/-- Witness for C4 at the concrete buffer `[2, 0, 0, 0, 7, 8]` with
signature `"ay"`: both calls succeed and agree on 6 bytes. -/
theorem C4_extent_agreement_witness :
    (SharedData.head ⟨[2, 0, 0, 0, 7, 8], 0⟩ 6).len = 6 := by
  have h1 : Array.slice_data ⟨[2, 0, 0, 0, 7, 8], 0⟩ ['a', 'y'] ⟨.little⟩ =
      .ok (SharedData.head ⟨[2, 0, 0, 0, 7, 8], 0⟩ 6) := by
    simp [Array.slice_data, slice_loop, vt_slice_data, padAmt,
      SharedData.len, SharedData.position, SharedData.head, SharedData.tail,
      ensure_correct_signature, Array.slice_signature, slice_signature,
      scalarInfo, u32_decode_simple, u32_slice_data_simple, slice_data_simple,
      readNat, orderBytes, natOfBytes, EncodingContext.copy_for_child,
      Except.map]
  have h2 : Array.decodeRun ⟨[2, 0, 0, 0, 7, 8], 0⟩ ['a', 'y'] ⟨.little⟩ =
      .ok (6, [.u8 7, .u8 8]) := by
    simp [Array.decodeRun, decode_loop, vt_slice_data, Variant.from_data,
      u8_decode_simple, padAmt, SharedData.len, SharedData.position,
      SharedData.head, SharedData.tail, SharedData.subset,
      ensure_correct_signature, Array.slice_signature, slice_signature,
      scalarInfo, u32_decode_simple, u32_slice_data_simple, slice_data_simple,
      readNat, orderBytes, natOfBytes, EncodingContext.copy_for_child,
      Except.map]
  exact C4_extent_agreement ⟨[2, 0, 0, 0, 7, 8], 0⟩ ['a', 'y'] ⟨.little⟩
    (SharedData.head ⟨[2, 0, 0, 0, 7, 8], 0⟩ 6) (6, [.u8 7, .u8 8]) h1 h2

/-- C7: `Array::slice_signature` returns the full string on `"aai"`,
exactly the prefix `"ai"` on `"aix"` (leaving `'x'` unconsumed), and
fails with `InsufficientData` on the one-character string `"a"`. -/
theorem C7_slice_signature_cases :
    Array.slice_signature ['a', 'a', 'i'] = .ok ['a', 'a', 'i'] ∧
    Array.slice_signature ['a', 'i', 'x'] = .ok ['a', 'i'] ∧
    Array.slice_signature ['a'] = .error .InsufficientData := by
  refine ⟨?_, ?_, ?_⟩ <;>
    simp [Array.slice_signature, slice_signature, scalarInfo, Except.map]

/-! ## Claim C10: instance signature of an empty array -/

/-- C10: `Array::signature` indexes the first element unconditionally
(`self.inner()[0]`), so on any empty array — in particular one built by
`Array::new` — it panics (modelled as `none`): the instance signature is
only defined when the array is non-empty. -/
theorem C10_signature_empty_partial :
    Array.signature Array.new = none ∧
    ∀ a : Array, a.elems = [] → Array.signature a = none := by
  constructor
  · simp [Array.signature, Array.new, array_signature_of]
  · intro a h
    simp [Array.signature, h, array_signature_of]

/-- Witness for C10 at the concrete empty array `Array::new`. -/
theorem C10_signature_empty_partial_witness :
    Array.signature Array.new = none :=
  C10_signature_empty_partial.2 Array.new rfl


/-! ## Claim C8: conversion to a homogeneous vector -/

/-- List-level behaviour of the `TryInto<Vec<T>>` loop: with every
element of kind `k` it returns all payloads in order (re-wrapping them
recovers the original elements); otherwise it fails with
`IncorrectType`. -/
theorem try_into_vec_spec (k : Kind) (l : List Variant) :
    if l.all (fun e => e.kind == k) then
      ∃ ts, try_into_vec k l = .ok ts ∧ ts.map (to_variant k) = l
    else try_into_vec k l = .error .IncorrectType := by
  induction l with
  | nil => exact ⟨[], rfl, rfl⟩
  | cons v rest ih =>
    by_cases hv : v.kind = k
    · obtain ⟨t, ht, htv⟩ : ∃ t, take_from_variant k v = .ok t ∧
          to_variant k t = v := by
        cases v <;> cases k <;>
          simp_all [take_from_variant, to_variant, Variant.kind]
      by_cases hrest : rest.all (fun e => e.kind == k)
      · rw [if_pos (by simp [List.all_cons, hv, hrest])]
        rw [if_pos hrest] at ih
        obtain ⟨ts, hts, hmap⟩ := ih
        exact ⟨t :: ts, by simp [try_into_vec, ht, hts],
          by simp [htv, hmap]⟩
      · rw [if_neg (by simp [List.all_cons, hrest])]
        rw [if_neg hrest] at ih
        simp [try_into_vec, ht, ih]
    · have ht : take_from_variant k v = .error .IncorrectType := by
        cases v <;> cases k <;> simp_all [take_from_variant, Variant.kind]
      rw [if_neg (by simp [List.all_cons, hv])]
      simp [try_into_vec, ht]

/-- C8: converting an `Array` into a `Vec<T>` fails with `IncorrectType`
as soon as any element is not of kind `T`, and otherwise returns every
element downcast to `T` in the original order (re-wrapping the results
with `to_variant` recovers the array's elements exactly). -/
theorem C8_array_try_into (k : Kind) (a : Array) :
    if a.elems.all (fun e => e.kind == k) then
      ∃ ts, Array.try_into k a = .ok ts ∧ ts.map (to_variant k) = a.elems
    else Array.try_into k a = .error .IncorrectType := by
  have h := try_into_vec_spec k a.elems
  simpa [Array.try_into, Array.take_inner] using h


/-! ## Structure of the encoder output -/

/-- The 4-byte field is 4 bytes in either byte order. -/
theorem u32ToBytes_length (o : ByteOrder) (v : Nat) :
    (u32ToBytes o v).length = 4 := by
  cases o <;> simp [u32ToBytes, bytes4, orderBytes]

/-- A variant has positive size (used to refute `sizeOf v ≤ 0`). -/
theorem variant_sizeOf_pos (v : Variant) : 0 < sizeOf v := by
  cases v <;> simp_arith

/-- Back-patching the 4 reserved bytes right after a prefix `A` replaces
exactly those bytes. -/
theorem writeU32At_append (A w0 t w : List Nat) (h : w0.length = 4) :
    writeU32At ((A ++ w0) ++ t) A.length w = (A ++ w) ++ t := by
  unfold writeU32At
  rw [List.drop_left' (show (A ++ w0).length = A.length + 4 by simp [h])]
  rw [List.append_assoc A w0 t, List.take_left]

/-- Encoding appends a suffix that depends on the buffer only through
its length: the joint two-buffer statement for values and element
lists, by strong induction on size. -/
theorem encode_two_buffers :
    ∀ n : Nat,
      (∀ v : Variant, sizeOf v ≤ n →
        ∀ (b1 b2 : List Nat) (ctx : EncodingContext), b1.length = b2.length →
        ∃ t, encode_value_into v b1 ctx = b1 ++ t ∧
             encode_value_into v b2 ctx = b2 ++ t) ∧
      (∀ es : List Variant, sizeOf es ≤ n →
        ∀ (b1 b2 : List Nat) (ctx : EncodingContext), b1.length = b2.length →
        ∃ t, encode_elems es b1 ctx = b1 ++ t ∧
             encode_elems es b2 ctx = b2 ++ t) := by
  intro n
  induction n with
  | zero =>
    constructor
    · intro v hv
      exact absurd hv (by have := variant_sizeOf_pos v; omega)
    · intro es hes b1 b2 ctx hlen
      cases es with
      | nil => exact ⟨[], by simp [encode_elems], by simp [encode_elems]⟩
      | cons e es' => exact absurd hes (by simp_arith)
  | succ n ih =>
    obtain ⟨ihv, ihl⟩ := ih
    constructor
    · intro v hv b1 b2 ctx hlen
      have hp : padAmt b2.length 4 = padAmt b1.length 4 := by rw [hlen]
      have hp8 : padAmt b2.length 8 = padAmt b1.length 8 := by rw [hlen]
      cases v with
      | u8 x =>
        exact ⟨[x % 256], by simp [encode_value_into],
          by simp [encode_value_into]⟩
      | i32 x =>
        refine ⟨List.replicate (padAmt b1.length 4) 0 ++
          orderBytes ctx.order (bytes4 (ofSigned 32 x)), ?_, ?_⟩ <;>
          simp [encode_value_into, addPadding, hp]
      | u32 x =>
        refine ⟨List.replicate (padAmt b1.length 4) 0 ++
          orderBytes ctx.order (bytes4 x), ?_, ?_⟩ <;>
          simp [encode_value_into, addPadding, hp]
      | i64 x =>
        refine ⟨List.replicate (padAmt b1.length 8) 0 ++
          orderBytes ctx.order (bytes8 (ofSigned 64 x)), ?_, ?_⟩ <;>
          simp [encode_value_into, addPadding, hp8]
      | array es =>
        have hes : sizeOf es ≤ n := by
          have h1 : sizeOf (Variant.array es) = 1 + sizeOf es := by
            simp_arith
          omega
        have hB : (addPadding 4 b1 ++ u32ToBytes nativeOrder 0).length =
            (addPadding 4 b2 ++ u32ToBytes nativeOrder 0).length := by
          simp [addPadding, hp, hlen]
        obtain ⟨t, ht1, ht2⟩ := ihl es hes
          (addPadding 4 b1 ++ u32ToBytes nativeOrder 0)
          (addPadding 4 b2 ++ u32ToBytes nativeOrder 0) ctx hB
        have hdef : ∀ b : List Nat, encode_array_into es b ctx =
            writeU32At
              (encode_elems es (addPadding 4 b ++ u32ToBytes nativeOrder 0)
                ctx.copy_for_child)
              (addPadding 4 b).length
              (u32ToBytes nativeOrder (usize_to_u32
                ((encode_elems es
                    (addPadding 4 b ++ u32ToBytes nativeOrder 0)
                    ctx.copy_for_child).length -
                  (addPadding 4 b ++ u32ToBytes nativeOrder 0).length))) :=
          fun b => by rw [encode_array_into.eq_def]
        refine ⟨List.replicate (padAmt b1.length 4) 0 ++
          u32ToBytes nativeOrder (usize_to_u32 t.length) ++ t, ?_, ?_⟩
        · simp only [encode_value_into]
          rw [hdef b1]
          simp only [EncodingContext.copy_for_child] at ht1 ⊢
          rw [ht1]
          have harith : ((addPadding 4 b1 ++ u32ToBytes nativeOrder 0) ++
              t).length -
              (addPadding 4 b1 ++ u32ToBytes nativeOrder 0).length =
              t.length := by
            simp
            omega
          rw [show addPadding 4 b1 ++ u32ToBytes nativeOrder 0 ++ t =
            (addPadding 4 b1 ++ u32ToBytes nativeOrder 0) ++ t from rfl,
            harith,
            writeU32At_append _ _ _ _ (u32ToBytes_length _ _)]
          simp [addPadding, List.append_assoc]
        · simp only [encode_value_into]
          rw [hdef b2]
          simp only [EncodingContext.copy_for_child] at ht2 ⊢
          rw [ht2]
          have harith : ((addPadding 4 b2 ++ u32ToBytes nativeOrder 0) ++
              t).length -
              (addPadding 4 b2 ++ u32ToBytes nativeOrder 0).length =
              t.length := by
            simp
            omega
          rw [show addPadding 4 b2 ++ u32ToBytes nativeOrder 0 ++ t =
            (addPadding 4 b2 ++ u32ToBytes nativeOrder 0) ++ t from rfl,
            harith,
            writeU32At_append _ _ _ _ (u32ToBytes_length _ _)]
          simp [addPadding, List.append_assoc, hp]
    · intro es hes b1 b2 ctx hlen
      cases es with
      | nil => exact ⟨[], by simp [encode_elems], by simp [encode_elems]⟩
      | cons e es' =>
        have he : sizeOf e ≤ n := by
          have : sizeOf (e :: es') = 1 + sizeOf e + sizeOf es' := by simp_arith
          omega
        have hes' : sizeOf es' ≤ n := by
          have : sizeOf (e :: es') = 1 + sizeOf e + sizeOf es' := by simp_arith
          omega
        obtain ⟨t1, he1, he2⟩ := ihv e he b1 b2 ctx hlen
        obtain ⟨t2, hl1, hl2⟩ := ihl es' hes' (b1 ++ t1) (b2 ++ t1) ctx
          (by simp [hlen])
        refine ⟨t1 ++ t2, ?_, ?_⟩
        · simp only [encode_elems]
          rw [he1, hl1, List.append_assoc]
        · simp only [encode_elems]
          rw [he2, hl2, List.append_assoc]


/-- The byte suffix a value appends when encoded at absolute position
`pos` (encoding depends on the buffer only through its length). -/
def encSuffix (v : Variant) (pos : Nat) (ctx : EncodingContext) : List Nat :=
  (encode_value_into v (List.replicate pos 0) ctx).drop pos

/-- The byte suffix an element list appends from absolute position
`pos`. -/
def encListSuffix (es : List Variant) (pos : Nat) (ctx : EncodingContext) :
    List Nat :=
  (encode_elems es (List.replicate pos 0) ctx).drop pos

/-- `encode_value_into` appends exactly `encSuffix`. -/
theorem encode_value_eq_append (v : Variant) (b : List Nat)
    (ctx : EncodingContext) :
    encode_value_into v b ctx = b ++ encSuffix v b.length ctx := by
  obtain ⟨t, h1, h2⟩ := (encode_two_buffers (sizeOf v)).1 v le_rfl b
    (List.replicate b.length 0) ctx (by simp)
  rw [h1]
  unfold encSuffix
  rw [h2, List.drop_left' (by simp)]

/-- `encode_elems` appends exactly `encListSuffix`. -/
theorem encode_elems_eq_append (es : List Variant) (b : List Nat)
    (ctx : EncodingContext) :
    encode_elems es b ctx = b ++ encListSuffix es b.length ctx := by
  obtain ⟨t, h1, h2⟩ := (encode_two_buffers (sizeOf es)).2 es le_rfl b
    (List.replicate b.length 0) ctx (by simp)
  rw [h1]
  unfold encListSuffix
  rw [h2, List.drop_left' (by simp)]

/-- Empty element list appends nothing. -/
theorem encListSuffix_nil (pos : Nat) (ctx : EncodingContext) :
    encListSuffix [] pos ctx = [] := by
  unfold encListSuffix
  simp [encode_elems]

/-- Splitting the suffix of a non-empty element list at its first
element. -/
theorem encListSuffix_cons (e : Variant) (es : List Variant) (pos : Nat)
    (ctx : EncodingContext) :
    encListSuffix (e :: es) pos ctx =
      encSuffix e pos ctx ++
        encListSuffix es (pos + (encSuffix e pos ctx).length) ctx := by
  have hlen : (List.replicate pos (0 : Nat)).length = pos := by simp
  unfold encListSuffix
  simp only [encode_elems]
  rw [encode_value_eq_append, hlen]
  rw [encode_elems_eq_append]
  have hlen2 : (List.replicate pos (0 : Nat) ++ encSuffix e pos ctx).length =
      pos + (encSuffix e pos ctx).length := by
    simp
  rw [hlen2, List.append_assoc, List.drop_left' hlen]
  rfl

/-- Length of the padded buffer. -/
theorem addPadding_length (align : Nat) (b : List Nat) :
    (addPadding align b).length = b.length + padAmt b.length align := by
  simp [addPadding]

/-- The shape of `Array::encode_into`'s output: the input buffer, the
array's padding, the back-patched native-endian length field, then the
element payload. -/
theorem encode_array_eq (es : List Variant) (b : List Nat)
    (ctx : EncodingContext) :
    encode_array_into es b ctx =
      ((b ++ List.replicate (padAmt b.length 4) 0) ++
        u32ToBytes nativeOrder (usize_to_u32
          (encListSuffix es (b.length + padAmt b.length 4 + 4)
            ctx.copy_for_child).length)) ++
      encListSuffix es (b.length + padAmt b.length 4 + 4)
        ctx.copy_for_child := by
  have hdef : encode_array_into es b ctx =
      writeU32At
        (encode_elems es (addPadding 4 b ++ u32ToBytes nativeOrder 0)
          ctx.copy_for_child)
        (addPadding 4 b).length
        (u32ToBytes nativeOrder (usize_to_u32
          ((encode_elems es (addPadding 4 b ++ u32ToBytes nativeOrder 0)
              ctx.copy_for_child).length -
            (addPadding 4 b ++ u32ToBytes nativeOrder 0).length))) := by
    rw [encode_array_into.eq_def]
  rw [hdef]
  rw [encode_elems_eq_append]
  have hlen : (addPadding 4 b ++ u32ToBytes nativeOrder 0).length =
      b.length + padAmt b.length 4 + 4 := by
    simp [addPadding_length, u32ToBytes_length]
  rw [hlen]
  have harith : ((addPadding 4 b ++ u32ToBytes nativeOrder 0) ++
      encListSuffix es (b.length + padAmt b.length 4 + 4)
        ctx.copy_for_child).length -
      (b.length + padAmt b.length 4 + 4) =
      (encListSuffix es (b.length + padAmt b.length 4 + 4)
        ctx.copy_for_child).length := by
    simp [addPadding_length, u32ToBytes_length]
    omega
  rw [harith]
  rw [writeU32At_append _ _ _ _ (u32ToBytes_length _ _)]
  rw [show addPadding 4 b = b ++ List.replicate (padAmt b.length 4) 0
    from rfl]

/-! ## Claim C9: encode only appends (plus the back-patch) -/

/-- C9: `Array::encode_into` only mutates the output buffer by
appending: the bytes present before the call are preserved verbatim as
the prefix, and everything after them is the array's padding, the
back-patched 4-byte length field, and the element payload — the only
in-place write is the back-patch of the reserved field, which lies
beyond the original buffer. The `Array` argument is a value in this
model, so the traversal is read-only by construction. -/
theorem C9_encode_into_appends (a : Array) (bytes : List Nat)
    (ctx : EncodingContext) :
    ∃ payload,
      Array.encode_into a bytes ctx =
        ((bytes ++ List.replicate (padAmt bytes.length 4) 0) ++
          u32ToBytes nativeOrder (usize_to_u32 payload.length)) ++ payload ∧
      (Array.encode_into a bytes ctx).take bytes.length = bytes := by
  refine ⟨encListSuffix a.elems
    (bytes.length + padAmt bytes.length 4 + 4) ctx.copy_for_child, ?_, ?_⟩
  · exact encode_array_eq a.elems bytes ctx
  · rw [show Array.encode_into a bytes ctx =
      encode_array_into a.elems bytes ctx from rfl]
    rw [encode_array_eq a.elems bytes ctx]
    rw [List.append_assoc, List.append_assoc, List.take_left]

/-! ## Claim C3: the back-patched length field -/

/-- C3 amended: the 4 reserved bytes at the (padded) start of the
array's encoding are back-patched with the element-payload byte length
— final buffer length minus the length right after the field, as a u32
— in the NATIVE byte order (little-endian on this host), regardless of
the byte order carried by the context. -/
theorem C3_backpatch_native (a : Array) (bytes : List Nat)
    (ctx : EncodingContext) :
    ((Array.encode_into a bytes ctx).drop
        (bytes.length + padAmt bytes.length 4)).take 4 =
      u32ToBytes nativeOrder (usize_to_u32
        ((Array.encode_into a bytes ctx).length -
          (bytes.length + padAmt bytes.length 4 + 4))) := by
  rw [show Array.encode_into a bytes ctx =
    encode_array_into a.elems bytes ctx from rfl]
  rw [encode_array_eq a.elems bytes ctx]
  rw [List.append_assoc]
  rw [List.drop_left' (by simp)]
  rw [List.take_left' (u32ToBytes_length _ _)]
  congr 2
  simp [u32ToBytes_length]
  omega

/-- C3 counterexample: under a big-endian context the array `[u8 7]`
encoded into an empty buffer (no padding; the length field is the first
4 bytes) carries payload length 1 in the native-endian bytes
`[1, 0, 0, 0]`, not the context-order (big-endian) `[0, 0, 0, 1]` the
claim requires. -/
theorem C3_counterexample :
    ¬((Array.encode_into ⟨[.u8 7]⟩ [] ⟨.big⟩).take 4 =
      u32ToBytes ByteOrder.big
        ((Array.encode_into ⟨[.u8 7]⟩ [] ⟨.big⟩).length - 4)) := by
  have henc : Array.encode_into ⟨[.u8 7]⟩ [] ⟨.big⟩ = [1, 0, 0, 0, 7] := by
    rw [show Array.encode_into ⟨[.u8 7]⟩ [] ⟨.big⟩ =
      encode_array_into [.u8 7] [] ⟨.big⟩ from rfl]
    rw [encode_array_into.eq_def]
    simp [encode_elems, encode_value_into, addPadding, padAmt, u32ToBytes,
      bytes4, orderBytes, writeU32At, usize_to_u32, nativeOrder,
      EncodingContext.copy_for_child]
  rw [henc]
  simp [u32ToBytes, bytes4, orderBytes]


/-! ## Signatures for which the decoder inverts the encoder -/

/-- Element signatures whose values always occupy a multiple of 4 bytes
when laid out at a 4-aligned position — safe to store inside a further
level of arrays. -/
def alignedElemSig : List Char → Bool
  | ['i'] => true
  | ['u'] => true
  | ['x'] => true
  | 'a' :: rest => alignedElemSig rest
  | _ => false

/-- Element signatures for which array decode inverts array encode: any
single scalar, or a nested array signature all of whose scalars have
4- or 8-byte size (`alignedElemSig`). -/
def safeChildSig : List Char → Bool
  | ['y'] => true
  | ['i'] => true
  | ['u'] => true
  | ['x'] => true
  | 'a' :: rest => alignedElemSig rest
  | _ => false

/-- An aligned element signature is complete: the grammar consumes all
of it. -/
theorem alignedElemSig_complete :
    ∀ cs : List Char, alignedElemSig cs = true →
      slice_signature cs = .ok cs := by
  intro cs
  induction cs with
  | nil => intro h; simp [alignedElemSig] at h
  | cons c rest ih =>
    intro h
    by_cases hc : c = 'a'
    · subst hc
      have hrest : alignedElemSig rest = true := by
        simpa [alignedElemSig] using h
      simp [slice_signature, ih hrest, Except.map]
    · have : (c :: rest) = ['i'] ∨ (c :: rest) = ['u'] ∨
          (c :: rest) = ['x'] := by
        unfold alignedElemSig at h
        split at h <;> simp_all
      rcases this with h1 | h1 | h1 <;>
        (rw [h1]; simp [slice_signature, scalarInfo])

/-- An aligned element signature is also a safe child signature. -/
theorem alignedElemSig_safe :
    ∀ cs : List Char, alignedElemSig cs = true → safeChildSig cs = true := by
  intro cs h
  unfold alignedElemSig at h
  split at h <;> simp_all [safeChildSig, alignedElemSig]

/-- A safe child signature is complete: the grammar consumes all of
it. -/
theorem safeChildSig_complete :
    ∀ cs : List Char, safeChildSig cs = true →
      slice_signature cs = .ok cs := by
  intro cs h
  unfold safeChildSig at h
  split at h <;>
    first
      | (rename_i rest
         rw [show slice_signature ('a' :: rest) =
           (slice_signature rest).map (fun s => 'a' :: s) from rfl,
           alignedElemSig_complete rest h]
         rfl)
      | simp_all [slice_signature, scalarInfo]

/-- A safe child signature is non-empty. -/
theorem safeChildSig_ne {cs : List Char} (h : safeChildSig cs = true) :
    0 < cs.length := by
  cases cs with
  | nil => simp [safeChildSig] at h
  | cons c rest => simp

/-- A complete child makes `'a' :: cs` pass the signature check. -/
theorem ensure_of_complete {cs : List Char}
    (h : ZB.slice_signature cs = .ok cs) :
    ensure_correct_signature ('a' :: cs) = .ok () := by
  unfold ensure_correct_signature
  rw [show Array.slice_signature ('a' :: cs) =
    (ZB.slice_signature cs).map (fun s => 'a' :: s) from rfl]
  rw [h]
  simp [Except.map]

/-! ## Byte-codec inversions -/

/-- Reading back a 4-byte little-endian decomposition. -/
theorem natOfBytes_bytes4 (m : Nat) :
    natOfBytes (bytes4 m) = m % 4294967296 := by
  simp only [bytes4, natOfBytes]
  omega

/-- Reading back an 8-byte little-endian decomposition. -/
theorem natOfBytes_bytes8 (m : Nat) :
    natOfBytes (bytes8 m) = m % 18446744073709551616 := by
  simp only [bytes8, natOfBytes]
  omega

/-- Two's-complement roundtrip at 32 bits. -/
theorem toSigned_ofSigned32 {x : Int}
    (h1 : -2147483648 ≤ x) (h2 : x < 2147483648) :
    toSigned 32 ((ofSigned 32 x) % 4294967296) = x := by
  unfold toSigned ofSigned
  simp only [show (32 : Nat) - 1 = 31 from rfl]
  split <;> rename_i hlt <;> omega

/-- Two's-complement roundtrip at 64 bits. -/
theorem toSigned_ofSigned64 {x : Int}
    (h1 : -9223372036854775808 ≤ x) (h2 : x < 9223372036854775808) :
    toSigned 64 ((ofSigned 64 x) % 18446744073709551616) = x := by
  unfold toSigned ofSigned
  simp only [show (64 : Nat) - 1 = 63 from rfl]
  split <;> rename_i hlt <;> omega

/-! ## The byte suffix of each kind -/

/-- Suffix of a `u8` value. -/
theorem encSuffix_u8 (x pos : Nat) (ctx : EncodingContext) :
    encSuffix (.u8 x) pos ctx = [x % 256] := by
  unfold encSuffix
  simp [encode_value_into]

/-- Suffix of an `i32` value. -/
theorem encSuffix_i32 (x : Int) (pos : Nat) (ctx : EncodingContext) :
    encSuffix (.i32 x) pos ctx =
      List.replicate (padAmt pos 4) 0 ++
        orderBytes ctx.order (bytes4 (ofSigned 32 x)) := by
  unfold encSuffix
  simp only [encode_value_into, addPadding]
  rw [List.append_assoc, List.drop_left' (by simp)]
  simp

/-- Suffix of a `u32` value. -/
theorem encSuffix_u32 (x pos : Nat) (ctx : EncodingContext) :
    encSuffix (.u32 x) pos ctx =
      List.replicate (padAmt pos 4) 0 ++
        orderBytes ctx.order (bytes4 x) := by
  unfold encSuffix
  simp only [encode_value_into, addPadding]
  rw [List.append_assoc, List.drop_left' (by simp)]
  simp

/-- Suffix of an `i64` value. -/
theorem encSuffix_i64 (x : Int) (pos : Nat) (ctx : EncodingContext) :
    encSuffix (.i64 x) pos ctx =
      List.replicate (padAmt pos 8) 0 ++
        orderBytes ctx.order (bytes8 (ofSigned 64 x)) := by
  unfold encSuffix
  simp only [encode_value_into, addPadding]
  rw [List.append_assoc, List.drop_left' (by simp)]
  simp

/-- Suffix of an array value: its padding, the native-endian length
field, then the element payload. -/
theorem encSuffix_array (es : List Variant) (pos : Nat)
    (ctx : EncodingContext) :
    encSuffix (.array es) pos ctx =
      (List.replicate (padAmt pos 4) 0 ++
        u32ToBytes nativeOrder (usize_to_u32
          (encListSuffix es (pos + padAmt pos 4 + 4) ctx).length)) ++
      encListSuffix es (pos + padAmt pos 4 + 4) ctx := by
  unfold encSuffix
  simp only [encode_value_into]
  rw [encode_array_eq]
  simp only [EncodingContext.copy_for_child, List.length_replicate]
  rw [List.append_assoc, List.append_assoc]
  rw [List.drop_left' (by simp)]
  rw [← List.append_assoc]

/-- Every encoded value occupies at least one byte. -/
theorem encSuffix_pos (v : Variant) (pos : Nat) (ctx : EncodingContext) :
    1 ≤ (encSuffix v pos ctx).length := by
  cases v with
  | u8 x => simp [encSuffix_u8]
  | i32 x => cases ctx with | mk o => cases o <;>
      simp [encSuffix_i32, orderBytes, bytes4]
  | u32 x => cases ctx with | mk o => cases o <;>
      simp [encSuffix_u32, orderBytes, bytes4]
  | i64 x => cases ctx with | mk o => cases o <;>
      simp [encSuffix_i64, orderBytes, bytes8]
  | array es =>
    rw [encSuffix_array]
    simp [u32ToBytes_length]
    omega


/-! ## Inverting the conformance predicate -/

/-- Conformance inversion for `u8`. -/
theorem conforms_u8_inv {x : Nat} {cs : List Char}
    (h : conforms (.u8 x) cs = true) : cs = ['y'] ∧ x < 256 := by
  unfold conforms at h
  split at h <;> simp_all

/-- Conformance inversion for `i32`. -/
theorem conforms_i32_inv {x : Int} {cs : List Char}
    (h : conforms (.i32 x) cs = true) :
    cs = ['i'] ∧ -2147483648 ≤ x ∧ x < 2147483648 := by
  unfold conforms at h
  split at h <;> simp_all

/-- Conformance inversion for `u32`. -/
theorem conforms_u32_inv {x : Nat} {cs : List Char}
    (h : conforms (.u32 x) cs = true) : cs = ['u'] ∧ x < 4294967296 := by
  unfold conforms at h
  split at h <;> simp_all

/-- Conformance inversion for `i64`. -/
theorem conforms_i64_inv {x : Int} {cs : List Char}
    (h : conforms (.i64 x) cs = true) :
    cs = ['x'] ∧ -9223372036854775808 ≤ x ∧ x < 9223372036854775808 := by
  unfold conforms at h
  split at h <;> simp_all

/-- Conformance inversion for arrays. -/
theorem conforms_array_inv {es : List Variant} {cs : List Char}
    (h : conforms (.array es) cs = true) :
    ∃ rest, cs = 'a' :: rest ∧ conformsList es rest = true := by
  unfold conforms at h
  split at h <;> simp_all

/-- Conformance inversion for a non-empty element list. -/
theorem conformsList_cons_inv {e : Variant} {es : List Variant}
    {cs : List Char} (h : conformsList (e :: es) cs = true) :
    conforms e cs = true ∧ conformsList es cs = true := by
  unfold conformsList at h
  simp_all

/-! ## Sizes stay 4-aligned under aligned element signatures -/

/-- Under an aligned element signature, every value encoded at a
4-aligned position occupies a multiple of 4 bytes (joint statement for
values and element lists, by strong induction on size). -/
theorem encSuffix_mod4_strong :
    ∀ n : Nat,
      (∀ v : Variant, sizeOf v ≤ n → ∀ (cs : List Char) (pos : Nat)
        (ctx : EncodingContext), conforms v cs = true →
        alignedElemSig cs = true → pos % 4 = 0 →
        (encSuffix v pos ctx).length % 4 = 0) ∧
      (∀ es : List Variant, sizeOf es ≤ n → ∀ (cs : List Char) (pos : Nat)
        (ctx : EncodingContext), conformsList es cs = true →
        alignedElemSig cs = true → pos % 4 = 0 →
        (encListSuffix es pos ctx).length % 4 = 0) := by
  intro n
  induction n with
  | zero =>
    constructor
    · intro v hv
      exact absurd hv (by have := variant_sizeOf_pos v; omega)
    · intro es hes cs pos ctx hc ha hp
      cases es with
      | nil => simp [encListSuffix_nil]
      | cons e es' => exact absurd hes (by simp_arith)
  | succ n ih =>
    obtain ⟨ihv, ihl⟩ := ih
    constructor
    · intro v hv cs pos ctx hc ha hp
      cases v with
      | u8 x =>
        obtain ⟨rfl, _⟩ := conforms_u8_inv hc
        simp [alignedElemSig] at ha
      | i32 x =>
        obtain ⟨rfl, _, _⟩ := conforms_i32_inv hc
        rw [encSuffix_i32]
        have hz : padAmt pos 4 = 0 := padAmt_zero hp
        cases ctx with | mk o => cases o <;>
          simp [hz, orderBytes, bytes4]
      | u32 x =>
        obtain ⟨rfl, _⟩ := conforms_u32_inv hc
        rw [encSuffix_u32]
        have hz : padAmt pos 4 = 0 := padAmt_zero hp
        cases ctx with | mk o => cases o <;>
          simp [hz, orderBytes, bytes4]
      | i64 x =>
        obtain ⟨rfl, _, _⟩ := conforms_i64_inv hc
        rw [encSuffix_i64]
        have h8 : padAmt pos 8 % 4 = 0 := by
          unfold padAmt
          omega
        cases ctx with | mk o => cases o <;>
          (simp [orderBytes, bytes8]
           omega)
      | array es =>
        obtain ⟨rest, rfl, hlist⟩ := conforms_array_inv hc
        have harest : alignedElemSig rest = true := by
          simpa [alignedElemSig] using ha
        have hes : sizeOf es ≤ n := by
          have h1 : sizeOf (Variant.array es) = 1 + sizeOf es := by
            simp_arith
          omega
        rw [encSuffix_array]
        have hz : padAmt pos 4 = 0 := padAmt_zero hp
        have hP := ihl es hes rest (pos + padAmt pos 4 + 4) ctx hlist harest
          (by omega)
        simp only [hz, Nat.add_zero] at hP
        simp [hz, u32ToBytes_length]
        omega
    · intro es hes cs pos ctx hc ha hp
      cases es with
      | nil => simp [encListSuffix_nil]
      | cons e es' =>
        obtain ⟨hce, hces⟩ := conformsList_cons_inv hc
        have he : sizeOf e ≤ n := by
          have : sizeOf (e :: es') = 1 + sizeOf e + sizeOf es' := by
            simp_arith
          omega
        have hes' : sizeOf es' ≤ n := by
          have : sizeOf (e :: es') = 1 + sizeOf e + sizeOf es' := by
            simp_arith
          omega
        rw [encListSuffix_cons]
        have hS := ihv e he cs pos ctx hce ha hp
        have hL := ihl es' hes' cs (pos + (encSuffix e pos ctx).length) ctx
          hces ha (by omega)
        simp
        omega


/-! ## Scalar slicing and decoding on exact prefixes -/

/-- Dispatch of a scalar signature character. -/
theorem vt_slice_scalar {c : Char} {sz al : Nat}
    (h : scalarInfo c = some (sz, al)) (hc : ¬c = 'a')
    (d : SharedData) (rest : List Char) (ctx : EncodingContext) :
    vt_slice_data d (c :: rest) ctx = slice_data_simple sz al d := by
  rw [vt_slice_data.eq_def]
  simp [hc, h]

/-- A scalar slice on a buffer led by exactly the value's bytes returns
those bytes. -/
theorem slice_data_simple_of_prefix (sz al : Nat) (suffix T : List Nat)
    (pos : Nat) (hlen : suffix.length = padAmt pos al + sz) :
    slice_data_simple sz al ⟨suffix ++ T, pos⟩ = .ok ⟨suffix, pos⟩ := by
  unfold slice_data_simple
  simp only [SharedData.position, SharedData.len]
  rw [if_neg (by simp; omega)]
  unfold SharedData.head
  rw [List.take_left' hlen]


/-- Decoding an exactly-encoded `u8` recovers the value. -/
theorem from_data_u8 (x : Nat) (hx : x < 256) (pos : Nat) :
    Variant.from_data ⟨encSuffix (.u8 x) pos ⟨.little⟩, pos⟩ ['y']
      ⟨.little⟩ = .ok (.u8 x) := by
  rw [encSuffix_u8]
  rw [Variant.from_data.eq_def]
  simp [u8_decode_simple, SharedData.len, natOfBytes,
    Nat.mod_eq_of_lt hx, Except.map]

/-- Decoding an exactly-encoded `i32` recovers the value. -/
theorem from_data_i32 (x : Int) (h1 : -2147483648 ≤ x)
    (h2 : x < 2147483648) (pos : Nat) :
    Variant.from_data ⟨encSuffix (.i32 x) pos ⟨.little⟩, pos⟩ ['i']
      ⟨.little⟩ = .ok (.i32 x) := by
  rw [encSuffix_i32]
  rw [Variant.from_data.eq_def]
  simp only [orderBytes]
  have hdec : i32_decode_simple
      ⟨List.replicate (padAmt pos 4) 0 ++ bytes4 (ofSigned 32 x), pos⟩
      ⟨.little⟩ = .ok x := by
    unfold i32_decode_simple
    simp only [SharedData.position, SharedData.len]
    rw [if_neg (by simp [bytes4])]
    rw [List.drop_left' (by simp)]
    rw [show List.take 4 (bytes4 (ofSigned 32 x)) = bytes4 (ofSigned 32 x)
      from by simp [bytes4]]
    simp only [readNat, orderBytes, natOfBytes_bytes4]
    rw [toSigned_ofSigned32 h1 h2]
  simp [hdec, Except.map]

/-- Decoding an exactly-encoded `u32` recovers the value. -/
theorem from_data_u32 (x : Nat) (hx : x < 4294967296) (pos : Nat) :
    Variant.from_data ⟨encSuffix (.u32 x) pos ⟨.little⟩, pos⟩ ['u']
      ⟨.little⟩ = .ok (.u32 x) := by
  rw [encSuffix_u32]
  rw [Variant.from_data.eq_def]
  simp only [orderBytes]
  have hdec : u32_decode_simple
      ⟨List.replicate (padAmt pos 4) 0 ++ bytes4 x, pos⟩
      ⟨.little⟩ = .ok x := by
    unfold u32_decode_simple
    simp only [SharedData.position, SharedData.len]
    rw [if_neg (by simp [bytes4])]
    rw [List.drop_left' (by simp)]
    rw [show List.take 4 (bytes4 x) = bytes4 x from by simp [bytes4]]
    simp only [readNat, orderBytes, natOfBytes_bytes4]
    rw [Nat.mod_eq_of_lt hx]
  simp [hdec, Except.map]

/-- Decoding an exactly-encoded `i64` recovers the value. -/
theorem from_data_i64 (x : Int) (h1 : -9223372036854775808 ≤ x)
    (h2 : x < 9223372036854775808) (pos : Nat) :
    Variant.from_data ⟨encSuffix (.i64 x) pos ⟨.little⟩, pos⟩ ['x']
      ⟨.little⟩ = .ok (.i64 x) := by
  rw [encSuffix_i64]
  rw [Variant.from_data.eq_def]
  simp only [orderBytes]
  have hdec : i64_decode_simple
      ⟨List.replicate (padAmt pos 8) 0 ++ bytes8 (ofSigned 64 x), pos⟩
      ⟨.little⟩ = .ok x := by
    unfold i64_decode_simple
    simp only [SharedData.position, SharedData.len]
    rw [if_neg (by simp [bytes8])]
    rw [List.drop_left' (by simp)]
    rw [show List.take 8 (bytes8 (ofSigned 64 x)) = bytes8 (ofSigned 64 x)
      from by simp [bytes8]]
    simp only [readNat, orderBytes, natOfBytes_bytes8]
    rw [toSigned_ofSigned64 h1 h2]
  simp [hdec, Except.map]


/-- Dispatch of the array signature character in the extent scanner. -/
theorem vt_slice_array (d : SharedData) (rest : List Char)
    (ctx : EncodingContext) :
    vt_slice_data d ('a' :: rest) ctx = Array.slice_data d ('a' :: rest)
      ctx := by
  rw [vt_slice_data.eq_def]
  simp

/-- Dispatch of the array signature character in value decoding. -/
theorem from_data_array (d : SharedData) (rest : List Char)
    (ctx : EncodingContext) {r : Nat × List Variant}
    (h : Array.decodeRun d ('a' :: rest) ctx = .ok r) :
    Variant.from_data d ('a' :: rest) ctx = .ok (Variant.array r.2) := by
  rw [Variant.from_data.eq_def]
  simp [h]

/-- Reading a length field encoded in native order at an aligned
position. -/
theorem u32_decode_exact (W R : List Nat) (pos m : Nat)
    (hW : W = u32ToBytes nativeOrder (usize_to_u32 m)) (hm : m < 4294967296)
    (hpos : pos % 4 = 0) :
    u32_decode_simple ⟨W ++ R, pos⟩ ⟨.little⟩ = .ok m := by
  have hW4 : W.length = 4 := by rw [hW]; exact u32ToBytes_length _ _
  unfold u32_decode_simple
  simp only [SharedData.position, SharedData.len]
  rw [padAmt_zero hpos]
  rw [if_neg (by simp [hW4])]
  simp only [List.drop_zero]
  rw [List.take_left' hW4]
  rw [hW]
  simp only [readNat, u32ToBytes, nativeOrder, orderBytes,
    natOfBytes_bytes4, usize_to_u32]
  congr 1
  omega


/-- A head view over a buffer that starts with `bs` is exactly `bs`. -/
theorem SharedData.head_prefix (bs tl : List Nat) (p k : Nat)
    (h : bs.length = k) :
    SharedData.head ⟨bs ++ tl, p⟩ k = ⟨bs, p⟩ := by
  unfold SharedData.head
  simp [List.take_left' h]

/-- A subset view from 0 over a buffer that starts with `bs` is `bs`. -/
theorem SharedData.subset_prefix (bs tl : List Nat) (p k : Nat)
    (h : bs.length = k) :
    SharedData.subset ⟨bs ++ tl, p⟩ 0 k = ⟨bs, p⟩ := by
  unfold SharedData.subset
  simp [List.take_left' h]

/-! ## The decoder inverts the encoder -/

/-- Joint roundtrip statement, by strong induction on size: a value
encoded at position `pos` (with anything after it) is sliced back as
exactly its own bytes and decoded back to itself; an element list
encoded after a prefix of length `E` is scanned by both loops up to
exactly `LEN = E +` payload length, the decode loop collecting the
original elements in order. Holds for the native (little-endian)
context and for element signatures in `safeChildSig`. -/
theorem roundtrip_strong :
    ∀ n : Nat,
      (∀ v : Variant, sizeOf v ≤ n →
        ∀ (cs : List Char) (pos : Nat) (trailing : List Nat),
          conforms v cs = true → safeChildSig cs = true →
          (∀ rest, cs = 'a' :: rest → pos % 4 = 0) →
          (encSuffix v pos ⟨.little⟩).length < 4294967296 →
          vt_slice_data ⟨encSuffix v pos ⟨.little⟩ ++ trailing, pos⟩ cs
              ⟨.little⟩ =
            .ok ⟨encSuffix v pos ⟨.little⟩, pos⟩ ∧
          Variant.from_data ⟨encSuffix v pos ⟨.little⟩, pos⟩ cs ⟨.little⟩ =
            .ok v) ∧
      (∀ es : List Variant, sizeOf es ≤ n →
        ∀ (cs : List Char) (P E LEN : Nat) (pre trailing : List Nat),
          conformsList es cs = true → safeChildSig cs = true →
          (∀ rest, cs = 'a' :: rest → (P + E) % 4 = 0) →
          pre.length = E →
          LEN = E + (encListSuffix es (P + E) ⟨.little⟩).length →
          (encListSuffix es (P + E) ⟨.little⟩).length < 4294967296 →
          slice_loop ⟨(pre ++ encListSuffix es (P + E) ⟨.little⟩) ++
              trailing, P⟩ LEN cs ⟨.little⟩ E = .ok LEN ∧
          ∀ acc, decode_loop ⟨(pre ++ encListSuffix es (P + E) ⟨.little⟩) ++
              trailing, P⟩ LEN cs ⟨.little⟩ E acc = .ok (LEN, acc ++ es)) := by
  intro n
  induction n with
  | zero =>
    constructor
    · intro v hv
      exact absurd hv (by have := variant_sizeOf_pos v; omega)
    · intro es hes cs P E LEN pre trailing hc hsafe halign hpre hLEN hB
      cases es with
      | cons e es' => exact absurd hes (by simp_arith)
      | nil =>
        rw [encListSuffix_nil] at hLEN ⊢
        simp only [List.length_nil, Nat.add_zero] at hLEN
        have hstop : ¬E < LEN := by omega
        constructor
        · rw [slice_loop.eq_def, dif_neg hstop]
          rw [show LEN = E by omega]
        · intro acc
          rw [decode_loop.eq_def, dif_neg hstop]
          rw [show LEN = E by omega]
          simp
  | succ n ih =>
    obtain ⟨ihv, ihl⟩ := ih
    constructor
    · intro v hv cs pos trailing hc hsafe halign hB
      cases v with
      | u8 x =>
        obtain ⟨rfl, hx⟩ := conforms_u8_inv hc
        constructor
        · rw [vt_slice_scalar (show scalarInfo 'y' = some (1, 1) from rfl)
            (by decide)]
          exact slice_data_simple_of_prefix 1 1 _ trailing pos
            (by rw [encSuffix_u8]; simp [padAmt, Nat.mod_one])
        · exact from_data_u8 x hx pos
      | i32 x =>
        obtain ⟨rfl, h1, h2⟩ := conforms_i32_inv hc
        constructor
        · rw [vt_slice_scalar (show scalarInfo 'i' = some (4, 4) from rfl)
            (by decide)]
          exact slice_data_simple_of_prefix 4 4 _ trailing pos
            (by rw [encSuffix_i32]; simp [orderBytes, bytes4])
        · exact from_data_i32 x h1 h2 pos
      | u32 x =>
        obtain ⟨rfl, hx⟩ := conforms_u32_inv hc
        constructor
        · rw [vt_slice_scalar (show scalarInfo 'u' = some (4, 4) from rfl)
            (by decide)]
          exact slice_data_simple_of_prefix 4 4 _ trailing pos
            (by rw [encSuffix_u32]; simp [orderBytes, bytes4])
        · exact from_data_u32 x hx pos
      | i64 x =>
        obtain ⟨rfl, h1, h2⟩ := conforms_i64_inv hc
        constructor
        · rw [vt_slice_scalar (show scalarInfo 'x' = some (8, 8) from rfl)
            (by decide)]
          exact slice_data_simple_of_prefix 8 8 _ trailing pos
            (by rw [encSuffix_i64]; simp [orderBytes, bytes8])
        · exact from_data_i64 x h1 h2 pos
      | array es =>
        obtain ⟨rest, rfl, hlist⟩ := conforms_array_inv hc
        have hpos4 : pos % 4 = 0 := halign rest rfl
        have harest : alignedElemSig rest = true := by
          simpa [safeChildSig] using hsafe
        have hz : padAmt pos 4 = 0 := padAmt_zero hpos4
        have hes : sizeOf es ≤ n := by
          have h1 : sizeOf (Variant.array es) = 1 + sizeOf es := by
            simp_arith
          omega
        have hsuf : encSuffix (.array es) pos ⟨.little⟩ =
            u32ToBytes nativeOrder (usize_to_u32
              (encListSuffix es (pos + 4) ⟨.little⟩).length) ++
            encListSuffix es (pos + 4) ⟨.little⟩ := by
          rw [encSuffix_array]
          simp [hz]
        have hsuflen : (encSuffix (.array es) pos ⟨.little⟩).length =
            4 + (encListSuffix es (pos + 4) ⟨.little⟩).length := by
          rw [hsuf]
          simp [u32ToBytes_length]
        have hPlt : (encListSuffix es (pos + 4) ⟨.little⟩).length <
            4294967296 := by omega
        have h2' : ¬('a' :: rest).length < 2 := by
          have := safeChildSig_ne (alignedElemSig_safe rest harest)
          simp
          omega
        have hens : ensure_correct_signature ('a' :: rest) = .ok () :=
          ensure_of_complete (alignedElemSig_complete rest harest)
        have hcs : ZB.slice_signature (('a' :: rest).drop 1) = .ok rest := by
          simpa using alignedElemSig_complete rest harest
        have hsafe' : safeChildSig rest = true :=
          alignedElemSig_safe rest harest
        have halign' : ∀ r2, rest = 'a' :: r2 → (pos + 4) % 4 = 0 := by
          intro r2 _
          omega
        obtain ⟨hsliceloop, hdecloop⟩ := ihl es hes rest pos 4
          ((encListSuffix es (pos + 4) ⟨.little⟩).length + 4)
          (u32ToBytes nativeOrder (usize_to_u32
            (encListSuffix es (pos + 4) ⟨.little⟩).length)) trailing
          hlist hsafe' halign' (u32ToBytes_length _ _) (by omega) hPlt
        obtain ⟨hsliceloop0, hdecloop0⟩ := ihl es hes rest pos 4
          ((encListSuffix es (pos + 4) ⟨.little⟩).length + 4)
          (u32ToBytes nativeOrder (usize_to_u32
            (encListSuffix es (pos + 4) ⟨.little⟩).length)) []
          hlist hsafe' halign' (u32ToBytes_length _ _) (by omega) hPlt
        constructor
        · -- the extent scan returns exactly the array's bytes
          rw [hsuf]
          rw [vt_slice_array]
          have hdecl1 : u32_decode_simple
              (SharedData.head ⟨(u32ToBytes nativeOrder (usize_to_u32
                  (encListSuffix es (pos + 4) ⟨.little⟩).length) ++
                encListSuffix es (pos + 4) ⟨.little⟩) ++ trailing, pos⟩
                (padAmt pos 4 + 4)) ⟨.little⟩ =
              .ok (encListSuffix es (pos + 4) ⟨.little⟩).length := by
            have hhead : SharedData.head ⟨(u32ToBytes nativeOrder
                (usize_to_u32
                  (encListSuffix es (pos + 4) ⟨.little⟩).length) ++
                encListSuffix es (pos + 4) ⟨.little⟩) ++ trailing, pos⟩
                (padAmt pos 4 + 4) =
                ⟨u32ToBytes nativeOrder (usize_to_u32
                  (encListSuffix es (pos + 4) ⟨.little⟩).length), pos⟩ := by
              rw [hz, List.append_assoc]
              exact SharedData.head_prefix _ _ _ _
                (by simp [u32ToBytes_length])
            rw [hhead]
            have := u32_decode_exact
              (u32ToBytes nativeOrder (usize_to_u32
                (encListSuffix es (pos + 4) ⟨.little⟩).length)) []
              pos (encListSuffix es (pos + 4) ⟨.little⟩).length rfl hPlt
              hpos4
            simpa using this
          have hloop1 : slice_loop
              ⟨(u32ToBytes nativeOrder (usize_to_u32
                  (encListSuffix es (pos + 4) ⟨.little⟩).length) ++
                encListSuffix es (pos + 4) ⟨.little⟩) ++ trailing, pos⟩
              ((encListSuffix es (pos + 4) ⟨.little⟩).length + 4) rest
              (EncodingContext.mk .little).copy_for_child
              (padAmt pos 4 + 4) =
              .ok ((encListSuffix es (pos + 4) ⟨.little⟩).length + 4) := by
            simp only [hz, Nat.zero_add, EncodingContext.copy_for_child]
            exact hsliceloop
          rw [slice_data_eval h2' hens hcs
            (by simp only [SharedData.len, hz, List.length_append,
              u32ToBytes_length]
                omega)
            hdecl1 hloop1 (by omega)]
          congr 1
          exact SharedData.head_prefix _ _ _ _
            (by simp only [List.length_append, u32ToBytes_length]; omega)
        · -- decoding materialises the elements
          rw [hsuf]
          have hsub : SharedData.subset
              ⟨u32ToBytes nativeOrder (usize_to_u32
                  (encListSuffix es (pos + 4) ⟨.little⟩).length) ++
                encListSuffix es (pos + 4) ⟨.little⟩, pos⟩
              (padAmt pos 4) (padAmt pos 4 + 4) =
              ⟨u32ToBytes nativeOrder (usize_to_u32
                (encListSuffix es (pos + 4) ⟨.little⟩).length), pos⟩ := by
            rw [hz]
            exact SharedData.subset_prefix _ _ _ _
              (by simp [u32ToBytes_length])
          have hdecl2 : u32_decode_simple (SharedData.subset
              ⟨u32ToBytes nativeOrder (usize_to_u32
                  (encListSuffix es (pos + 4) ⟨.little⟩).length) ++
                encListSuffix es (pos + 4) ⟨.little⟩, pos⟩
              (padAmt pos 4) (padAmt pos 4 + 4)) ⟨.little⟩ =
              .ok (encListSuffix es (pos + 4) ⟨.little⟩).length := by
            rw [hsub]
            have := u32_decode_exact
              (u32ToBytes nativeOrder (usize_to_u32
                (encListSuffix es (pos + 4) ⟨.little⟩).length)) []
              pos (encListSuffix es (pos + 4) ⟨.little⟩).length rfl hPlt
              hpos4
            simpa using this
          have hloop2 : decode_loop
              ⟨u32ToBytes nativeOrder (usize_to_u32
                  (encListSuffix es (pos + 4) ⟨.little⟩).length) ++
                encListSuffix es (pos + 4) ⟨.little⟩, pos⟩
              ((encListSuffix es (pos + 4) ⟨.little⟩).length + 4) rest
              (EncodingContext.mk .little).copy_for_child
              (padAmt pos 4 + 4) [] =
              .ok ((encListSuffix es (pos + 4) ⟨.little⟩).length + 4,
                es) := by
            simp only [hz, Nat.zero_add, EncodingContext.copy_for_child]
            have := hdecloop0 []
            simpa using this
          have hrun : Array.decodeRun
              ⟨u32ToBytes nativeOrder (usize_to_u32
                  (encListSuffix es (pos + 4) ⟨.little⟩).length) ++
                encListSuffix es (pos + 4) ⟨.little⟩, pos⟩
              ('a' :: rest) ⟨.little⟩ =
              .ok ((encListSuffix es (pos + 4) ⟨.little⟩).length + 4,
                es) := by
            refine decodeRun_eval ?_ hens hcs hdecl2 hloop2 (by simp)
            rw [not_or]
            constructor
            · simp only [SharedData.len, hz, List.length_append,
                u32ToBytes_length]
              omega
            · exact h2'
          exact from_data_array _ rest _ hrun
    · intro es hes cs P E LEN pre trailing hc hsafe halign hpre hLEN hB
      cases es with
      | nil =>
        rw [encListSuffix_nil] at hLEN ⊢
        simp only [List.length_nil, Nat.add_zero] at hLEN
        have hstop : ¬E < LEN := by omega
        constructor
        · rw [slice_loop.eq_def, dif_neg hstop]
          rw [show LEN = E by omega]
        · intro acc
          rw [decode_loop.eq_def, dif_neg hstop]
          rw [show LEN = E by omega]
          simp
      | cons e es' =>
        obtain ⟨hce, hces⟩ := conformsList_cons_inv hc
        have he : sizeOf e ≤ n := by
          have : sizeOf (e :: es') = 1 + sizeOf e + sizeOf es' := by
            simp_arith
          omega
        have hes' : sizeOf es' ≤ n := by
          have : sizeOf (e :: es') = 1 + sizeOf e + sizeOf es' := by
            simp_arith
          omega
        rw [encListSuffix_cons] at hLEN hB ⊢
        simp only [List.length_append] at hLEN hB
        have hSpos : 1 ≤ (encSuffix e (P + E) ⟨.little⟩).length :=
          encSuffix_pos e (P + E) ⟨.little⟩
        have hElt : E < LEN := by omega
        obtain ⟨hvt, hfd⟩ := ihv e he cs (P + E)
          (encListSuffix es' (P + E + (encSuffix e (P + E)
            ⟨.little⟩).length) ⟨.little⟩ ++ trailing)
          hce hsafe halign (by omega)
        have htail : SharedData.tail
            ⟨(pre ++ (encSuffix e (P + E) ⟨.little⟩ ++
              encListSuffix es' (P + E + (encSuffix e (P + E)
                ⟨.little⟩).length) ⟨.little⟩)) ++ trailing, P⟩ E =
            ⟨encSuffix e (P + E) ⟨.little⟩ ++
              (encListSuffix es' (P + E + (encSuffix e (P + E)
                ⟨.little⟩).length) ⟨.little⟩ ++ trailing), P + E⟩ := by
          unfold SharedData.tail
          congr 1
          rw [List.append_assoc]
          rw [List.drop_left' hpre]
          rw [List.append_assoc]
        have halign_next : ∀ rest, cs = 'a' :: rest →
            (P + (E + (encSuffix e (P + E) ⟨.little⟩).length)) % 4 = 0 := by
          intro rest hcseq
          have hPE := halign rest hcseq
          have hacs : alignedElemSig cs = true := by
            subst hcseq
            simpa [safeChildSig, alignedElemSig] using hsafe
          have hmod := (encSuffix_mod4_strong (sizeOf e)).1 e le_rfl cs
            (P + E) ⟨.little⟩ hce hacs hPE
          omega
        have hLEN' : LEN = (E + (encSuffix e (P + E) ⟨.little⟩).length) +
            (encListSuffix es' (P + (E + (encSuffix e (P + E)
              ⟨.little⟩).length)) ⟨.little⟩).length := by
          rw [show P + (E + (encSuffix e (P + E) ⟨.little⟩).length) =
            P + E + (encSuffix e (P + E) ⟨.little⟩).length by omega]
          omega
        have hB' : (encListSuffix es' (P + (E + (encSuffix e (P + E)
            ⟨.little⟩).length)) ⟨.little⟩).length < 4294967296 := by
          rw [show P + (E + (encSuffix e (P + E) ⟨.little⟩).length) =
            P + E + (encSuffix e (P + E) ⟨.little⟩).length by omega]
          omega
        obtain ⟨hsl, hdl⟩ := ihl es' hes' cs P
          (E + (encSuffix e (P + E) ⟨.little⟩).length) LEN
          (pre ++ encSuffix e (P + E) ⟨.little⟩) trailing
          hces hsafe halign_next (by simp [hpre]) hLEN' hB'
        have hbytes : ((pre ++ encSuffix e (P + E) ⟨.little⟩) ++
            encListSuffix es' (P + (E + (encSuffix e (P + E)
              ⟨.little⟩).length)) ⟨.little⟩) ++ trailing =
            (pre ++ (encSuffix e (P + E) ⟨.little⟩ ++
              encListSuffix es' (P + E + (encSuffix e (P + E)
                ⟨.little⟩).length) ⟨.little⟩)) ++ trailing := by
          rw [show P + (E + (encSuffix e (P + E) ⟨.little⟩).length) =
            P + E + (encSuffix e (P + E) ⟨.little⟩).length by omega]
          simp [List.append_assoc]
        rw [hbytes] at hsl hdl
        have hSne : ¬(SharedData.mk (encSuffix e (P + E) ⟨.little⟩) (P + E)
            : SharedData).len = 0 := by
          simp only [SharedData.len]
          omega
        have hnoover : ¬E + (SharedData.mk
            (encSuffix e (P + E) ⟨.little⟩) (P + E) : SharedData).len >
            LEN := by
          simp only [SharedData.len]
          omega
        constructor
        · rw [slice_loop.eq_def, dif_pos hElt, htail, hvt]
          simp only []
          rw [dif_neg hSne, if_neg hnoover]
          simpa only [SharedData.len] using hsl
        · intro acc
          rw [decode_loop.eq_def, dif_pos hElt, htail, hvt]
          simp only []
          rw [dif_neg hSne, if_neg hnoover, hfd]
          simp only []
          have := hdl (acc ++ [e])
          simp only [SharedData.len]
          rw [this]
          simp

/-! ## C1 and C5: round-trip and slice extent at the claim level -/

/-- C1 (corrected): under the native little-endian context, for an
array whose elements all conform to a safe child signature (a single
scalar, or a nested array over 4/8-byte scalars) and whose element
payload fits in a `u32`, decoding the bytes produced by `encode_into`
with the array's own signature yields the array back, element-wise and
in order. -/
theorem C1_roundtrip_native (a : Array) (cs : List Char)
    (hsig : a.signature = some ('a' :: cs))
    (hconf : conformsList a.elems cs = true)
    (hsafe : safeChildSig cs = true)
    (hbound : (encListSuffix a.elems 4 ⟨.little⟩).length < 4294967296) :
    Array.decode ⟨Array.encode_into a [] ⟨.little⟩, 0⟩ ('a' :: cs)
      ⟨.little⟩ = .ok a := by
  have hcl : 0 < cs.length := safeChildSig_ne hsafe
  have hcomp : ZB.slice_signature cs = .ok cs := safeChildSig_complete cs hsafe
  have hens : ensure_correct_signature ('a' :: cs) = .ok () :=
    ensure_of_complete hcomp
  obtain ⟨-, hdecloop⟩ := (roundtrip_strong (sizeOf a.elems)).2 a.elems le_rfl
    cs 0 4 ((encListSuffix a.elems 4 ⟨.little⟩).length + 4)
    (u32ToBytes nativeOrder (usize_to_u32
      (encListSuffix a.elems 4 ⟨.little⟩).length)) []
    hconf hsafe (fun _ _ => rfl) (u32ToBytes_length _ _)
    (by simp only [Nat.zero_add]; omega) hbound
  simp only [Nat.zero_add, List.append_nil] at hdecloop
  have henc : Array.encode_into a [] ⟨.little⟩ =
      u32ToBytes nativeOrder (usize_to_u32
        (encListSuffix a.elems 4 ⟨.little⟩).length) ++
      encListSuffix a.elems 4 ⟨.little⟩ := by
    show encode_array_into a.elems [] ⟨.little⟩ = _
    rw [encode_array_eq]
    simp [show padAmt 0 4 = 0 from rfl, EncodingContext.copy_for_child]
  have hdecl : u32_decode_simple
      ((⟨u32ToBytes nativeOrder (usize_to_u32
          (encListSuffix a.elems 4 ⟨.little⟩).length) ++
        encListSuffix a.elems 4 ⟨.little⟩, 0⟩ : SharedData).subset
        (padAmt 0 4) (padAmt 0 4 + 4)) ⟨.little⟩ =
      .ok (encListSuffix a.elems 4 ⟨.little⟩).length := by
    rw [show padAmt 0 4 = 0 from rfl]
    rw [SharedData.subset_prefix _ _ _ _ (by simp [u32ToBytes_length])]
    simpa using u32_decode_exact
      (u32ToBytes nativeOrder (usize_to_u32
        (encListSuffix a.elems 4 ⟨.little⟩).length)) [] 0
      (encListSuffix a.elems 4 ⟨.little⟩).length rfl hbound rfl
  have hloop : decode_loop
      ⟨u32ToBytes nativeOrder (usize_to_u32
          (encListSuffix a.elems 4 ⟨.little⟩).length) ++
        encListSuffix a.elems 4 ⟨.little⟩, 0⟩
      ((encListSuffix a.elems 4 ⟨.little⟩).length + 4) cs
      (EncodingContext.mk .little).copy_for_child (padAmt 0 4 + 4) [] =
      .ok ((encListSuffix a.elems 4 ⟨.little⟩).length + 4, a.elems) := by
    simpa [EncodingContext.copy_for_child,
      show padAmt 0 4 = 0 from rfl] using hdecloop []
  have hrun : Array.decodeRun
      ⟨u32ToBytes nativeOrder (usize_to_u32
          (encListSuffix a.elems 4 ⟨.little⟩).length) ++
        encListSuffix a.elems 4 ⟨.little⟩, 0⟩ ('a' :: cs) ⟨.little⟩ =
      .ok ((encListSuffix a.elems 4 ⟨.little⟩).length + 4, a.elems) := by
    refine decodeRun_eval ?_ hens hcomp hdecl hloop (by simp)
    simp only [SharedData.len, List.length_append, u32ToBytes_length,
      List.length_cons, show padAmt (0 : Nat) 4 = 0 from rfl, not_or,
      not_lt]
    omega
  rw [henc]
  unfold Array.decode
  rw [hrun]
  simp [Array.new_from_vec]

/-- C1 witness: the two-element `u32` array round-trips concretely. -/
theorem C1_roundtrip_native_witness :
    Array.decode ⟨Array.encode_into ⟨[.u32 1, .u32 2]⟩ [] ⟨.little⟩, 0⟩
      ['a', 'u'] ⟨.little⟩ = .ok ⟨[.u32 1, .u32 2]⟩ :=
  C1_roundtrip_native ⟨[.u32 1, .u32 2]⟩ ['u'] (by decide) (by decide)
    (by decide)
    (by simp [encListSuffix_cons, encListSuffix_nil, encSuffix_u32,
      padAmt, orderBytes, bytes4])

/-- C1 counterexample: the round-trip fails without the corrections.
With a big-endian context even a one-byte `u8` array fails to decode
(the length field is written in native little-endian order but read
back big-endian); and under the native context a nested `aay` array
mis-slices its second inner array, whose alignment padding precedes an
unaligned position, and fails with `InsufficientData`. -/
theorem C1_counterexample :
    Array.decode ⟨Array.encode_into ⟨[.u8 7]⟩ [] ⟨.big⟩, 0⟩ ['a', 'y']
        ⟨.big⟩ ≠ .ok ⟨[.u8 7]⟩ ∧
    Array.decode ⟨Array.encode_into ⟨[.array [.u8 7], .array [.u8 8]]⟩ []
        ⟨.little⟩, 0⟩ ['a', 'a', 'y'] ⟨.little⟩ ≠
      .ok ⟨[.array [.u8 7], .array [.u8 8]]⟩ := by
  have henc1 : Array.encode_into ⟨[.u8 7]⟩ [] ⟨.big⟩ = [1, 0, 0, 0, 7] := by
    simp [Array.encode_into, encode_array_into, encode_elems,
      encode_value_into, addPadding, padAmt, writeU32At, u32ToBytes,
      orderBytes, bytes4, usize_to_u32, nativeOrder,
      EncodingContext.copy_for_child]
  have hdecl1 : u32_decode_simple
      ((⟨[1, 0, 0, 0, 7], 0⟩ : SharedData).subset
        (padAmt (⟨[1, 0, 0, 0, 7], 0⟩ : SharedData).pos 4)
        (padAmt (⟨[1, 0, 0, 0, 7], 0⟩ : SharedData).pos 4 + 4)) ⟨.big⟩ =
      .ok 16777216 := by
    simp [u32_decode_simple, SharedData.subset, SharedData.len,
      SharedData.position, padAmt, readNat, orderBytes, natOfBytes,
      Except.map]
  have hloop1 : decode_loop ⟨[1, 0, 0, 0, 7], 0⟩ (16777216 + 4) ['y']
      (EncodingContext.mk .big).copy_for_child
      (padAmt (⟨[1, 0, 0, 0, 7], 0⟩ : SharedData).pos 4 + 4)
      [] = .error .InsufficientData := by
    simp [decode_loop, vt_slice_data, Variant.from_data, u8_decode_simple,
      slice_data_simple, padAmt, SharedData.len, SharedData.position,
      SharedData.head, SharedData.tail, SharedData.subset, scalarInfo,
      readNat, orderBytes, natOfBytes, EncodingContext.copy_for_child,
      Except.map]
  have hcs1 : ZB.slice_signature (['a', 'y'].drop 1) = .ok ['y'] := by
    simp [slice_signature, scalarInfo]
  have hrun1 : Array.decodeRun ⟨[1, 0, 0, 0, 7], 0⟩ ['a', 'y'] ⟨.big⟩ =
      .error .InsufficientData :=
    decodeRun_eval_err (by decide)
      (by simp [ensure_correct_signature, Array.slice_signature,
        slice_signature, scalarInfo, Except.map])
      hcs1 hdecl1 hloop1
  have h1 : Array.decode ⟨[1, 0, 0, 0, 7], 0⟩ ['a', 'y'] ⟨.big⟩ =
      .error .InsufficientData := decode_of_decodeRun_err hrun1
  have henc2 : Array.encode_into ⟨[.array [.u8 7], .array [.u8 8]]⟩ []
      ⟨.little⟩ =
      [13, 0, 0, 0, 1, 0, 0, 0, 7, 0, 0, 0, 1, 0, 0, 0, 8] := by
    simp [Array.encode_into, encode_array_into, encode_elems,
      encode_value_into, addPadding, padAmt, writeU32At, u32ToBytes,
      orderBytes, bytes4, usize_to_u32, nativeOrder,
      EncodingContext.copy_for_child]
  have hdecl2 : u32_decode_simple
      ((⟨[13, 0, 0, 0, 1, 0, 0, 0, 7, 0, 0, 0, 1, 0, 0, 0, 8], 0⟩ :
        SharedData).subset
        (padAmt (⟨[13, 0, 0, 0, 1, 0, 0, 0, 7, 0, 0, 0, 1, 0, 0, 0, 8], 0⟩ :
          SharedData).pos 4)
        (padAmt (⟨[13, 0, 0, 0, 1, 0, 0, 0, 7, 0, 0, 0, 1, 0, 0, 0, 8], 0⟩ :
          SharedData).pos 4 + 4)) ⟨.little⟩ = .ok 13 := by
    simp [u32_decode_simple, SharedData.subset, SharedData.len,
      SharedData.position, padAmt, readNat, orderBytes, natOfBytes,
      Except.map]
  have hloop2 : decode_loop
      ⟨[13, 0, 0, 0, 1, 0, 0, 0, 7, 0, 0, 0, 1, 0, 0, 0, 8], 0⟩ (13 + 4)
      ['a', 'y'] (EncodingContext.mk .little).copy_for_child
      (padAmt (⟨[13, 0, 0, 0, 1, 0, 0, 0, 7, 0, 0, 0, 1, 0, 0, 0, 8], 0⟩ :
        SharedData).pos 4 + 4)
      [] = .error .InsufficientData := by
    simp [decode_loop, vt_slice_data, Variant.from_data, Array.decodeRun,
      Array.slice_data, slice_loop, u8_decode_simple, slice_data_simple,
      padAmt, SharedData.len, SharedData.position, SharedData.head,
      SharedData.tail, SharedData.subset, ensure_correct_signature,
      Array.slice_signature, slice_signature, scalarInfo, u32_decode_simple,
      u32_slice_data_simple, readNat, orderBytes, natOfBytes,
      EncodingContext.copy_for_child, Except.map]
  have hcs2 : ZB.slice_signature (['a', 'a', 'y'].drop 1) =
      .ok ['a', 'y'] := by
    simp [slice_signature, scalarInfo, Except.map]
  have hrun2 : Array.decodeRun
      ⟨[13, 0, 0, 0, 1, 0, 0, 0, 7, 0, 0, 0, 1, 0, 0, 0, 8], 0⟩
      ['a', 'a', 'y'] ⟨.little⟩ = .error .InsufficientData :=
    decodeRun_eval_err (by decide)
      (by simp [ensure_correct_signature, Array.slice_signature,
        slice_signature, scalarInfo, Except.map])
      hcs2 hdecl2 hloop2
  have h2 : Array.decode
      ⟨[13, 0, 0, 0, 1, 0, 0, 0, 7, 0, 0, 0, 1, 0, 0, 0, 8], 0⟩
      ['a', 'a', 'y'] ⟨.little⟩ = .error .InsufficientData :=
    decode_of_decodeRun_err hrun2
  refine ⟨?_, ?_⟩
  · rw [henc1, h1]
    simp
  · rw [henc2, h2]
    simp

/-- C5 (corrected): at a 4-byte-aligned position (where the array's own
leading padding is empty), for a buffer holding a validly encoded array
followed by unrelated trailing bytes, `Array::slice_data` returns the
view of exactly `declared_length + 4` bytes that starts at the length
field and holds the length field plus all element bytes; at unaligned
positions the function instead miscounts the padding against the
declared extent (see the counterexample). -/
theorem C5_slice_view (es : List Variant) (cs : List Char) (pos : Nat)
    (trailing : List Nat)
    (hpos : pos % 4 = 0)
    (hconf : conformsList es cs = true)
    (hsafe : safeChildSig cs = true)
    (hbound : (encListSuffix es (pos + 4) ⟨.little⟩).length < 4294967296) :
    Array.slice_data
        ⟨(u32ToBytes nativeOrder (usize_to_u32
            (encListSuffix es (pos + 4) ⟨.little⟩).length) ++
          encListSuffix es (pos + 4) ⟨.little⟩) ++ trailing, pos⟩
        ('a' :: cs) ⟨.little⟩ =
      .ok ⟨u32ToBytes nativeOrder (usize_to_u32
            (encListSuffix es (pos + 4) ⟨.little⟩).length) ++
          encListSuffix es (pos + 4) ⟨.little⟩, pos⟩ ∧
    (u32ToBytes nativeOrder (usize_to_u32
        (encListSuffix es (pos + 4) ⟨.little⟩).length) ++
      encListSuffix es (pos + 4) ⟨.little⟩).length =
      (encListSuffix es (pos + 4) ⟨.little⟩).length + 4 := by
  have hz : padAmt pos 4 = 0 := padAmt_zero hpos
  have hcl : 0 < cs.length := safeChildSig_ne hsafe
  have hcomp : ZB.slice_signature cs = .ok cs := safeChildSig_complete cs hsafe
  have hens : ensure_correct_signature ('a' :: cs) = .ok () :=
    ensure_of_complete hcomp
  obtain ⟨hsliceloop, -⟩ := (roundtrip_strong (sizeOf es)).2 es le_rfl
    cs pos 4 ((encListSuffix es (pos + 4) ⟨.little⟩).length + 4)
    (u32ToBytes nativeOrder (usize_to_u32
      (encListSuffix es (pos + 4) ⟨.little⟩).length)) trailing
    hconf hsafe (fun _ _ => by omega) (u32ToBytes_length _ _) (by omega)
    hbound
  have hdecl1 : u32_decode_simple
      ((⟨(u32ToBytes nativeOrder (usize_to_u32
          (encListSuffix es (pos + 4) ⟨.little⟩).length) ++
        encListSuffix es (pos + 4) ⟨.little⟩) ++ trailing, pos⟩
        : SharedData).head (padAmt pos 4 + 4)) ⟨.little⟩ =
      .ok (encListSuffix es (pos + 4) ⟨.little⟩).length := by
    have hhead : ((⟨(u32ToBytes nativeOrder (usize_to_u32
          (encListSuffix es (pos + 4) ⟨.little⟩).length) ++
        encListSuffix es (pos + 4) ⟨.little⟩) ++ trailing, pos⟩
        : SharedData)).head (padAmt pos 4 + 4) =
        ⟨u32ToBytes nativeOrder (usize_to_u32
          (encListSuffix es (pos + 4) ⟨.little⟩).length), pos⟩ := by
      rw [hz, List.append_assoc]
      exact SharedData.head_prefix _ _ _ _ (by simp [u32ToBytes_length])
    rw [hhead]
    simpa using u32_decode_exact
      (u32ToBytes nativeOrder (usize_to_u32
        (encListSuffix es (pos + 4) ⟨.little⟩).length)) [] pos
      (encListSuffix es (pos + 4) ⟨.little⟩).length rfl hbound hpos
  have hloop1 : slice_loop
      ⟨(u32ToBytes nativeOrder (usize_to_u32
          (encListSuffix es (pos + 4) ⟨.little⟩).length) ++
        encListSuffix es (pos + 4) ⟨.little⟩) ++ trailing, pos⟩
      ((encListSuffix es (pos + 4) ⟨.little⟩).length + 4) cs
      (EncodingContext.mk .little).copy_for_child (padAmt pos 4 + 4) =
      .ok ((encListSuffix es (pos + 4) ⟨.little⟩).length + 4) := by
    simp only [hz, Nat.zero_add, EncodingContext.copy_for_child]
    exact hsliceloop
  constructor
  · rw [slice_data_eval (by simp only [List.length_cons]; omega) hens hcomp
      (by simp only [SharedData.len, List.length_append, u32ToBytes_length,
            hz]
          omega)
      hdecl1 hloop1 (by omega)]
    congr 1
    exact SharedData.head_prefix _ _ _ _
      (by simp only [List.length_append, u32ToBytes_length]; omega)
  · simp only [List.length_append, u32ToBytes_length]
    omega

/-- C5 witness: a one-element `u32` array encoded at aligned position 4
with a trailing byte is sliced back as exactly its 8-byte view (length
field plus payload), starting at the length field. -/
theorem C5_slice_view_witness :
    Array.slice_data
        ⟨(u32ToBytes nativeOrder (usize_to_u32
            (encListSuffix [.u32 7] (4 + 4) ⟨.little⟩).length) ++
          encListSuffix [.u32 7] (4 + 4) ⟨.little⟩) ++ [9], 4⟩
        ['a', 'u'] ⟨.little⟩ =
      .ok ⟨u32ToBytes nativeOrder (usize_to_u32
            (encListSuffix [.u32 7] (4 + 4) ⟨.little⟩).length) ++
          encListSuffix [.u32 7] (4 + 4) ⟨.little⟩, 4⟩ :=
  (C5_slice_view [.u32 7] ['u'] 4 [9] (by decide) (by decide) (by decide)
    (by simp [encListSuffix_cons, encListSuffix_nil, encSuffix_u32,
      padAmt, orderBytes, bytes4])).1

/-- C5 counterexample: at the unaligned position 2 the same function
fails outright on a validly encoded one-element `u32` array (padding 2,
declared length 4): the loop counts the leading padding into
`extracted` but not into `len`, overshoots, and reports
`InsufficientData` instead of returning the 8-byte view. -/
theorem C5_counterexample :
    Array.slice_data ⟨[0, 0, 4, 0, 0, 0, 7, 0, 0, 0], 2⟩ ['a', 'u']
      ⟨.little⟩ = .error .InsufficientData := by
  simp [Array.slice_data, slice_loop, vt_slice_data, padAmt,
    SharedData.len, SharedData.position, SharedData.head, SharedData.tail,
    ensure_correct_signature, Array.slice_signature, slice_signature,
    scalarInfo, u32_decode_simple, u32_slice_data_simple, slice_data_simple,
    readNat, orderBytes, natOfBytes, EncodingContext.copy_for_child,
    Except.map]

end ZB
